import Mathlib

/-!
# Statistics of a simulated consensus run (`integration_test/stats.go`)

A shallow embedding of `StatsSet`, `Stats`, `NewStats` and their helpers.

Conventions of the embedding.

* Go `int` counters and `time.Duration` values are integers; they are embedded
  as `Int`.  A counter is incremented at most once per history entry, so it is
  bounded by the history length and cannot wrap; durations are assumed not to
  leave the 64 bit range.
* `time.Time` is an instant in nanoseconds (`Int`), `Time.Sub` is subtraction.
* A Go run-time panic is a value of `Panic`.  A method with a pointer receiver
  that can panic half way returns the receiver as mutated so far, together
  with `some p` when it panicked.
* `map[types.ValidatorID]*StatsSet` is an association list in insertion order.
  Go iterates a map in an unspecified order; every loop over the map in this
  file computes a result that does not depend on that order (a sum, or the
  same update of every entry).  `NewStatsIn` takes the iteration orders as
  parameters and is proved to give the same outcome for all of them.
* `float64` arithmetic is not embedded: `BPS` keeps the two integer operands
  of the floating point division, which cannot panic.
-/

namespace Integration

/-- The `common.Hash` of a block, an opaque identifier. -/
abbrev Hash := Nat

/-- The identity of a validator, `types.ValidatorID`. -/
abbrev ValidatorID := Nat

/-- An instant, in nanoseconds. -/
abbrev Time := Int

/-- A `time.Duration`, in nanoseconds. -/
abbrev Duration := Int

/-- Run-time panics of the Go program. -/
inductive Panic where
  | indexOutOfRange
  | typeAssertion
  | nilDereference
  | divideByZero
  deriving DecidableEq, Repr

/-- The two error values declared in `stats.go`. -/
inductive Error where
  | ErrUnknownEvent
  | ErrUnknownConsensusEventType
  deriving DecidableEq, Repr

/-- The part of `types.Block` that the statistics read. -/
structure Block where
  Hash : Hash
  deriving DecidableEq, Repr

/-- Modelled from the spec: the tag of a consensus event payload.  The
declaration of `consensusEventPayload` and of the constants `evtProposeBlock`
and `evtReceiveBlock` is not among the sources; the spec names the two defined
kinds (propose, receive) and allows a tag that is neither. -/
inductive consensusEventType where
  | evtProposeBlock
  | evtReceiveBlock
  | unknown (tag : Nat)
  deriving DecidableEq, Repr

/-- The dynamic content of the `PiggyBack interface{}` field: a block, or
anything else (including nil), for which the assertion `.(*types.Block)`
panics. -/
inductive PiggyBack where
  | block (b : Block)
  | other
  deriving DecidableEq, Repr

/-- Modelled from the spec: the consensus event payload, a tag and the
piggybacked value; its declaration is not among the sources. -/
structure consensusEventPayload where
  Typ : consensusEventType
  PiggyBack : PiggyBack
  deriving DecidableEq, Repr

/-- The dynamic content of `Event.Payload interface{}`: a consensus event
payload, or a value of another type. -/
inductive Payload where
  | consensus (p : consensusEventPayload)
  | other
  deriving DecidableEq, Repr

/-- The fields of `test.Event` that the statistics read. -/
structure Event where
  ValidatorID : ValidatorID
  Time : Time
  ExecInterval : Duration
  ParentHistoryIndex : Int
  Payload : Payload
  deriving DecidableEq, Repr

/-- The key sets of the three maps of `test.App` that the statistics read. -/
structure App where
  Acked : List Hash
  TotalOrderedByHash : List Hash
  Delivered : List Hash
  deriving DecidableEq, Repr

/-- Accumulated result of a group of related events. -/
structure StatsSet where
  ProposedBlockCount : Int := 0
  ReceivedBlockCount : Int := 0
  StronglyAckedBlockCount : Int := 0
  TotalOrderedBlockCount : Int := 0
  DeliveredBlockCount : Int := 0
  ProposingLatency : Duration := 0
  ReceivingLatency : Duration := 0
  PrepareExecLatency : Duration := 0
  ProcessExecLatency : Duration := 0
  deriving DecidableEq, Repr

/-- The two integer operands of the division that yields `BPS`:
`float64(num) / float64(den)`. -/
structure BPSOperands where
  num : Int := 0
  den : Int := 1
  deriving DecidableEq, Repr

/-- Statistics of a slice of events generated by validators. -/
structure Stats where
  ByValidator : List (ValidatorID × StatsSet) := []
  All : StatsSet := {}
  BPS : BPSOperands := {}
  ExecutionTime : Duration := 0
  deriving DecidableEq, Repr

/-- The slice access `history[i]` with a Go `int` index: `none` is the
index-out-of-range panic. -/
def historyAt (history : List Event) (i : Int) : Option Event :=
  if i < 0 then none else history[i.toNat]?

/-- Accumulates a block proposing event (`StatsSet.newBlockProposeEvent`). -/
def newBlockProposeEvent (s : StatsSet) (e : Event)
    (_payload : consensusEventPayload) (history : List Event) :
    StatsSet × Option Panic :=
  if e.ParentHistoryIndex ≠ -1 then
    match historyAt history e.ParentHistoryIndex with
    | none => (s, some Panic.indexOutOfRange)
    | some parentEvent =>
      let s1 := { s with
        ProposingLatency :=
          s.ProposingLatency + (e.Time - parentEvent.Time - parentEvent.ExecInterval) }
      ({ s1 with
          PrepareExecLatency := s1.PrepareExecLatency + e.ExecInterval
          ProposedBlockCount := s1.ProposedBlockCount + 1 }, none)
  else
    ({ s with
        PrepareExecLatency := s.PrepareExecLatency + e.ExecInterval
        ProposedBlockCount := s.ProposedBlockCount + 1 }, none)

/-- The closure that `newBlockReceiveEvent` passes to `app.Check`: the
confirmation funnel of one block, with its three early returns. -/
def checker (block : Block) (app : App) (s : StatsSet) : StatsSet :=
  if block.Hash ∉ app.Acked then s
  else
    let s1 := { s with StronglyAckedBlockCount := s.StronglyAckedBlockCount + 1 }
    if block.Hash ∉ app.TotalOrderedByHash then s1
    else
      let s2 := { s1 with TotalOrderedBlockCount := s1.TotalOrderedBlockCount + 1 }
      if block.Hash ∉ app.Delivered then s2
      else { s2 with DeliveredBlockCount := s2.DeliveredBlockCount + 1 }

/-- Modelled from the spec: `test.App.Check` is not among the sources.  It is
the scoped read of the oracle: it runs the given closure on the receiver.  A
nil receiver (a validator without an entry in `apps`) cannot be read. -/
def Check (app : Option App) (f : App → StatsSet → StatsSet) (s : StatsSet) :
    StatsSet × Option Panic :=
  match app with
  | none => (s, some Panic.nilDereference)
  | some a => (f a s, none)

/-- Accumulates a block received event (`StatsSet.newBlockReceiveEvent`). -/
def newBlockReceiveEvent (s : StatsSet) (e : Event)
    (payload : consensusEventPayload) (history : List Event) (app : Option App) :
    StatsSet × Option Panic :=
  match historyAt history e.ParentHistoryIndex with
  | none => (s, some Panic.indexOutOfRange)
  | some parentEvent =>
    let s1 := { s with
      ReceivingLatency :=
        s.ReceivingLatency + (e.Time - parentEvent.Time - parentEvent.ExecInterval)
      ProcessExecLatency := s.ProcessExecLatency + e.ExecInterval
      ReceivedBlockCount := s.ReceivedBlockCount + 1 }
    match payload.PiggyBack with
    | PiggyBack.other => (s1, some Panic.typeAssertion)
    | PiggyBack.block block => Check app (checker block) s1

/-- Divides the cached latencies by the related event counts
(`StatsSet.done`).  Go integer division truncates toward zero and panics on a
zero divisor; the four divisions run in source order. -/
def done (s : StatsSet) (validatorCount : Int) : StatsSet × Option Panic :=
  if s.ProposedBlockCount - validatorCount = 0 then (s, some Panic.divideByZero)
  else
    let s1 := { s with
      ProposingLatency := Int.tdiv s.ProposingLatency (s.ProposedBlockCount - validatorCount) }
    if s1.ReceivedBlockCount = 0 then (s1, some Panic.divideByZero)
    else
      let s2 := { s1 with
        ReceivingLatency := Int.tdiv s1.ReceivingLatency s1.ReceivedBlockCount }
      if s2.ProposedBlockCount = 0 then (s2, some Panic.divideByZero)
      else
        let s3 := { s2 with
          PrepareExecLatency := Int.tdiv s2.PrepareExecLatency s2.ProposedBlockCount }
        if s3.ReceivedBlockCount = 0 then (s3, some Panic.divideByZero)
        else
          ({ s3 with
              ProcessExecLatency := Int.tdiv s3.ProcessExecLatency s3.ReceivedBlockCount },
            none)

/-- The map read `stats.ByValidator[vID]`. -/
def lookupSet (byValidator : List (ValidatorID × StatsSet)) (vID : ValidatorID) :
    Option StatsSet :=
  match byValidator with
  | [] => none
  | (k, s) :: rest => if k = vID then some s else lookupSet rest vID

/-- Writes through the pointer stored under `vID`: the set of that key
becomes `s`. -/
def storeSet (byValidator : List (ValidatorID × StatsSet)) (vID : ValidatorID)
    (s : StatsSet) : List (ValidatorID × StatsSet) :=
  match byValidator with
  | [] => []
  | (k, t) :: rest =>
    if k = vID then (k, s) :: rest else (k, t) :: storeSet rest vID s

/-- The set of a validator, created empty on first use
(`Stats.getStatsSetByValidator`).  Returns the statistics with the entry
present, and the set the returned pointer refers to. -/
def getStatsSetByValidator (stats : Stats) (vID : ValidatorID) : Stats × StatsSet :=
  match lookupSet stats.ByValidator vID with
  | some s => (stats, s)
  | none => ({ stats with ByValidator := stats.ByValidator ++ [(vID, {})] }, {})

/-- How the loop of `calculate` leaves one iteration, or the whole loop. -/
inductive LoopExit where
  | finished
  | returned (err : Error)
  | panicked (p : Panic)
  deriving DecidableEq, Repr

/-- One iteration of the loop of `Stats.calculate`, on event `e`;
`LoopExit.finished` means the loop goes on. -/
def calculateEvent (stats : Stats) (e : Event) (history : List Event)
    (apps : ValidatorID → Option App) : Stats × LoopExit :=
  match e.Payload with
  | Payload.other => (stats, LoopExit.returned Error.ErrUnknownEvent)
  | Payload.consensus payload =>
    match payload.Typ with
    | consensusEventType.evtProposeBlock =>
      match newBlockProposeEvent stats.All e payload history with
      | (all, some p) => ({ stats with All := all }, LoopExit.panicked p)
      | (all, none) =>
        let (stats1, s) := getStatsSetByValidator { stats with All := all } e.ValidatorID
        match newBlockProposeEvent s e payload history with
        | (s1, some p) =>
          ({ stats1 with ByValidator := storeSet stats1.ByValidator e.ValidatorID s1 },
            LoopExit.panicked p)
        | (s1, none) =>
          ({ stats1 with ByValidator := storeSet stats1.ByValidator e.ValidatorID s1 },
            LoopExit.finished)
    | consensusEventType.evtReceiveBlock =>
      match newBlockReceiveEvent stats.All e payload history (apps e.ValidatorID) with
      | (all, some p) => ({ stats with All := all }, LoopExit.panicked p)
      | (all, none) =>
        let (stats1, s) := getStatsSetByValidator { stats with All := all } e.ValidatorID
        match newBlockReceiveEvent s e payload history (apps e.ValidatorID) with
        | (s1, some p) =>
          ({ stats1 with ByValidator := storeSet stats1.ByValidator e.ValidatorID s1 },
            LoopExit.panicked p)
        | (s1, none) =>
          ({ stats1 with ByValidator := storeSet stats1.ByValidator e.ValidatorID s1 },
            LoopExit.finished)
    | consensusEventType.unknown _ =>
      (stats, LoopExit.returned Error.ErrUnknownConsensusEventType)

/-- The loop `for _, e := range history` of `Stats.calculate`, over the
events still to visit. -/
def calculateLoop (stats : Stats) (rest : List Event) (history : List Event)
    (apps : ValidatorID → Option App) : Stats × LoopExit :=
  match rest with
  | [] => (stats, LoopExit.finished)
  | e :: rest1 =>
    match calculateEvent stats e history apps with
    | (stats1, LoopExit.finished) => calculateLoop stats1 rest1 history apps
    | r => r

/-- The loop `for _, set := range stats.ByValidator { set.done(1) }`; the
first division by zero ends it. -/
def doneEach (byValidator : List (ValidatorID × StatsSet)) :
    Except Panic (List (ValidatorID × StatsSet)) :=
  match byValidator with
  | [] => Except.ok []
  | (k, s) :: rest =>
    match done s 1 with
    | (_, some p) => Except.error p
    | (s1, none) =>
      match doneEach rest with
      | Except.error p => Except.error p
      | Except.ok rest1 => Except.ok ((k, s1) :: rest1)

/-- The deferred function of `Stats.calculate`. -/
def calculateDeferred (stats : Stats) : Except Panic Stats :=
  match done stats.All (stats.ByValidator.length : Int) with
  | (_, some p) => Except.error p
  | (all, none) =>
    match doneEach stats.ByValidator with
    | Except.error p => Except.error p
    | Except.ok byValidator => Except.ok { stats with All := all, ByValidator := byValidator }

/-- The method `Stats.calculate`: the loop, then the deferred function, which
runs on every exit of the loop, a panic included; a panic of the deferred
function is the one that propagates. -/
def calculate (stats : Stats) (history : List Event)
    (apps : ValidatorID → Option App) : Except Panic (Stats × Option Error) :=
  match calculateLoop stats history history apps with
  | (stats1, exit) =>
    match calculateDeferred stats1 with
    | Except.error p => Except.error p
    | Except.ok stats2 =>
      match exit with
      | LoopExit.finished => Except.ok (stats2, none)
      | LoopExit.returned err => Except.ok (stats2, some err)
      | LoopExit.panicked p => Except.error p

/-- Sum of the delivered counts of the per-validator sets, the loop that opens
`Stats.summary`. -/
def totalConfirmedBlocks (byValidator : List (ValidatorID × StatsSet)) : Int :=
  match byValidator with
  | [] => 0
  | (_, s) :: rest => s.DeliveredBlockCount + totalConfirmedBlocks rest

/-- The method `Stats.summary`, on a receiver that may be the nil pointer. -/
def summary (stats : Option Stats) (history : List Event) : Except Panic Stats :=
  match stats with
  | none => Except.error Panic.nilDereference
  | some st =>
    if (st.ByValidator.length : Int) = 0 then Except.error Panic.divideByZero
    else
      let averageConfirmedBlocks :=
        Int.tdiv (totalConfirmedBlocks st.ByValidator) (st.ByValidator.length : Int)
      match historyAt history ((history.length : Int) - 1), historyAt history 0 with
      | some last, some first =>
        let executionTime := last.Time - first.Time
        let latencyAsSecond := Int.tdiv executionTime (1000 * 1000 * 1000)
        Except.ok { st with
          ExecutionTime := executionTime
          BPS := { num := averageConfirmedBlocks, den := latencyAsSecond } }
      | _, _ => Except.error Panic.indexOutOfRange

/-- The constructor `NewStats`: the returned pair `(stats, err)`, or the
panic that leaves it. -/
def NewStats (history : List Event) (apps : ValidatorID → Option App) :
    Except Panic (Option Stats × Option Error) :=
  match calculate {} history apps with
  | Except.error p => Except.error p
  | Except.ok (stats, err) =>
    let stats1 : Option Stats := if err ≠ none then none else some stats
    match summary stats1 history with
    | Except.error p => Except.error p
    | Except.ok stats2 => Except.ok (some stats2, err)

/-- The confirmation funnel of a set is ordered: delivered, totally ordered,
strongly acked and received counts, in nondecreasing order. -/
def funnelOrdered (s : StatsSet) : Prop :=
  s.DeliveredBlockCount ≤ s.TotalOrderedBlockCount ∧
  s.TotalOrderedBlockCount ≤ s.StronglyAckedBlockCount ∧
  s.StronglyAckedBlockCount ≤ s.ReceivedBlockCount

instance (s : StatsSet) : Decidable (funnelOrdered s) := by
  unfold funnelOrdered; infer_instance

/-- A propose event of validator `v`, for examples. -/
def mkPropose (v : ValidatorID) (t : Time) (exec : Duration) (parent : Int) : Event :=
  { ValidatorID := v, Time := t, ExecInterval := exec, ParentHistoryIndex := parent,
    Payload := Payload.consensus
      { Typ := consensusEventType.evtProposeBlock, PiggyBack := PiggyBack.other } }

/-- A receive event of validator `v` for the block with hash `h`, for examples. -/
def mkReceive (v : ValidatorID) (t : Time) (exec : Duration) (parent : Int) (h : Hash) :
    Event :=
  { ValidatorID := v, Time := t, ExecInterval := exec, ParentHistoryIndex := parent,
    Payload := Payload.consensus
      { Typ := consensusEventType.evtReceiveBlock, PiggyBack := PiggyBack.block ⟨h⟩ } }

/-- An oracle in which block 7 is acked, totally ordered and delivered. -/
def fullApp : App := { Acked := [7], TotalOrderedByHash := [7], Delivered := [7] }

/-- An oracle in which block 7 is totally ordered and delivered but not
acked. -/
def unackedApp : App := { Acked := [], TotalOrderedByHash := [7], Delivered := [7] }

/-- Oracles of the examples: validators 1 and 2 confirm block 7 fully, other
validators have no entry. -/
def sampleApps : ValidatorID → Option App :=
  fun v => if v = 1 ∨ v = 2 then some fullApp else none

/-- A history on which `NewStats` succeeds: validator 1 proposes twice and
receives block 7 two seconds later. -/
def sampleHistory : List Event :=
  [mkPropose 1 0 1 (-1), mkPropose 1 10 1 0, mkReceive 1 2000000020 2 1 7]

/-- The one-validator scenario of the spec: a parentless proposal at time 0 and
the receipt of block 7 at time 5. -/
def scenarioHistory : List Event :=
  [mkPropose 1 0 1 (-1), mkReceive 1 5 2 0 7]

/-- Every set of the statistics, `All` and each per-validator one, has an
ordered funnel. -/
def statsOrdered (stats : Stats) : Prop :=
  funnelOrdered stats.All ∧ ∀ kv ∈ stats.ByValidator, funnelOrdered kv.2

/-- The value that `NewStats` returns on `sampleHistory` with `sampleApps`. -/
def sampleStats : Stats :=
  { ByValidator :=
      [(1, { ProposedBlockCount := 2, ReceivedBlockCount := 1,
             StronglyAckedBlockCount := 1, TotalOrderedBlockCount := 1,
             DeliveredBlockCount := 1, ProposingLatency := 9,
             ReceivingLatency := 2000000009, PrepareExecLatency := 1,
             ProcessExecLatency := 2 })],
    All := { ProposedBlockCount := 2, ReceivedBlockCount := 1,
             StronglyAckedBlockCount := 1, TotalOrderedBlockCount := 1,
             DeliveredBlockCount := 1, ProposingLatency := 9,
             ReceivingLatency := 2000000009, PrepareExecLatency := 1,
             ProcessExecLatency := 2 },
    BPS := { num := 1, den := 2 },
    ExecutionTime := 2000000020 }

/-- Sum of the integer `f` of the per-validator sets. -/
def sumOver (f : StatsSet → Int) (byValidator : List (ValidatorID × StatsSet)) : Int :=
  match byValidator with
  | [] => 0
  | (_, s) :: rest => f s + sumOver f rest

/-- The five block counters of a set, as selectors. -/
def IsCounter (f : StatsSet → Int) : Prop :=
  f = StatsSet.ProposedBlockCount ∨ f = StatsSet.ReceivedBlockCount ∨
  f = StatsSet.StronglyAckedBlockCount ∨ f = StatsSet.TotalOrderedBlockCount ∨
  f = StatsSet.DeliveredBlockCount

/-- A history on which `NewStats` succeeds with two validators: each proposes
twice and receives block 7. -/
def twoValidatorHistory : List Event :=
  [mkPropose 1 0 1 (-1), mkPropose 2 1 1 (-1), mkPropose 1 10 1 0, mkPropose 2 11 1 1,
   mkReceive 1 20 2 3 7, mkReceive 2 3000000000 2 2 7]

/-- The value that `NewStats` returns on `twoValidatorHistory` with
`sampleApps`. -/
def twoValidatorStats : Stats :=
  { ByValidator :=
      [(1, { ProposedBlockCount := 2, ReceivedBlockCount := 1,
             StronglyAckedBlockCount := 1, TotalOrderedBlockCount := 1,
             DeliveredBlockCount := 1, ProposingLatency := 9,
             ReceivingLatency := 8, PrepareExecLatency := 1,
             ProcessExecLatency := 2 }),
       (2, { ProposedBlockCount := 2, ReceivedBlockCount := 1,
             StronglyAckedBlockCount := 1, TotalOrderedBlockCount := 1,
             DeliveredBlockCount := 1, ProposingLatency := 9,
             ReceivingLatency := 2999999989, PrepareExecLatency := 1,
             ProcessExecLatency := 2 })],
    All := { ProposedBlockCount := 4, ReceivedBlockCount := 2,
             StronglyAckedBlockCount := 2, TotalOrderedBlockCount := 2,
             DeliveredBlockCount := 2, ProposingLatency := 9,
             ReceivingLatency := 1499999998, PrepareExecLatency := 1,
             ProcessExecLatency := 2 },
    BPS := { num := 1, den := 3 },
    ExecutionTime := 3000000000 }

/-- An event that `calculate` rejects: its payload is not a consensus event
payload, or the payload type is neither propose nor receive. -/
def malformed (e : Event) : Prop :=
  match e.Payload with
  | Payload.other => True
  | Payload.consensus payload =>
    payload.Typ ≠ consensusEventType.evtProposeBlock ∧
    payload.Typ ≠ consensusEventType.evtReceiveBlock

/-- An event whose payload is not a consensus event payload. -/
def unknownEvent : Event :=
  { ValidatorID := 1, Time := 2000000030, ExecInterval := 0, ParentHistoryIndex := -1,
    Payload := Payload.other }

/-- The sample history followed by an event with an unknown payload. -/
def malformedHistory : List Event := sampleHistory ++ [unknownEvent]

/-- The event is a block proposal: a consensus payload of type
`evtProposeBlock`. -/
def isPropose (e : Event) : Bool :=
  match e.Payload with
  | Payload.consensus payload => decide (payload.Typ = consensusEventType.evtProposeBlock)
  | Payload.other => false

/-- The event is a block receipt: a consensus payload of type
`evtReceiveBlock`. -/
def isReceive (e : Event) : Bool :=
  match e.Payload with
  | Payload.consensus payload => decide (payload.Typ = consensusEventType.evtReceiveBlock)
  | Payload.other => false

/-- The call `newBlockProposeEvent` on `e` does not panic: `e` has no parent,
or its parent index is in range. -/
def proposeOk (e : Event) (history : List Event) : Bool :=
  decide (e.ParentHistoryIndex = -1) || (historyAt history e.ParentHistoryIndex).isSome

/-- The call `newBlockReceiveEvent` on `e` does not panic: the parent index is
in range, the piggyback is a block and the oracle is present. -/
def receiveOk (e : Event) (payload : consensusEventPayload) (history : List Event)
    (app : Option App) : Bool :=
  (historyAt history e.ParentHistoryIndex).isSome &&
  (match payload.PiggyBack with
    | PiggyBack.block _ => true
    | PiggyBack.other => false) &&
  app.isSome

/-- The body of the loop of `calculate` goes through on `e`: the payload is a
propose or receive consensus payload and the matching method does not panic. -/
def eventOk (e : Event) (history : List Event) (apps : ValidatorID → Option App) : Bool :=
  match e.Payload with
  | Payload.other => false
  | Payload.consensus payload =>
    match payload.Typ with
    | consensusEventType.evtProposeBlock => proposeOk e history
    | consensusEventType.evtReceiveBlock =>
      receiveOk e payload history (apps e.ValidatorID)
    | consensusEventType.unknown _ => false

/-- The set that the accumulation method matching `e` leaves, started on `s`
(`s` itself when the payload is rejected). -/
def accumulate (e : Event) (history : List Event) (apps : ValidatorID → Option App)
    (s : StatsSet) : StatsSet :=
  match e.Payload with
  | Payload.other => s
  | Payload.consensus payload =>
    match payload.Typ with
    | consensusEventType.evtProposeBlock => (newBlockProposeEvent s e payload history).1
    | consensusEventType.evtReceiveBlock =>
      (newBlockReceiveEvent s e payload history (apps e.ValidatorID)).1
    | consensusEventType.unknown _ => s

/-- The set left by accumulating the given events in order, started on `s`. -/
def accumulateAll (events : List Event) (history : List Event)
    (apps : ValidatorID → Option App) (s : StatsSet) : StatsSet :=
  match events with
  | [] => s
  | e :: rest => accumulateAll rest history apps (accumulate e history apps s)

/-- The events of validator `w`, in history order. -/
def eventsOf (w : ValidatorID) (events : List Event) : List Event :=
  events.filter (fun e => decide (e.ValidatorID = w))

/-- The sample history followed by the events of a second validator: two
proposals and the receipt of block 7. -/
def extendedHistory : List Event :=
  sampleHistory ++
    [mkPropose 2 2000000030 1 (-1), mkPropose 2 2000000040 1 3,
     mkReceive 2 2000000050 2 4 7]

/-- The value that `NewStats` returns on `extendedHistory` with `sampleApps`. -/
def extendedStats : Stats :=
  { ByValidator :=
      [(1, { ProposedBlockCount := 2, ReceivedBlockCount := 1,
             StronglyAckedBlockCount := 1, TotalOrderedBlockCount := 1,
             DeliveredBlockCount := 1, ProposingLatency := 9,
             ReceivingLatency := 2000000009, PrepareExecLatency := 1,
             ProcessExecLatency := 2 }),
       (2, { ProposedBlockCount := 2, ReceivedBlockCount := 1,
             StronglyAckedBlockCount := 1, TotalOrderedBlockCount := 1,
             DeliveredBlockCount := 1, ProposingLatency := 9,
             ReceivingLatency := 9, PrepareExecLatency := 1,
             ProcessExecLatency := 2 })],
    All := { ProposedBlockCount := 4, ReceivedBlockCount := 2,
             StronglyAckedBlockCount := 2, TotalOrderedBlockCount := 2,
             DeliveredBlockCount := 2, ProposingLatency := 9,
             ReceivingLatency := 1000000009, PrepareExecLatency := 1,
             ProcessExecLatency := 2 },
    BPS := { num := 1, den := 2 },
    ExecutionTime := 2000000050 }

/-- The event is a proposal with a parent (`ParentHistoryIndex` is not -1). -/
def isParentedPropose (e : Event) : Bool :=
  isPropose e && decide (e.ParentHistoryIndex ≠ -1)

/-- The event is a proposal without a parent (`ParentHistoryIndex = -1`). -/
def isParentlessPropose (e : Event) : Bool :=
  isPropose e && decide (e.ParentHistoryIndex = -1)

/-- The latency that an event with a parent contributes:
`(e.Time - parent.Time) - parent.ExecInterval`. -/
def parentGap (history : List Event) (e : Event) : Duration :=
  match historyAt history e.ParentHistoryIndex with
  | some parentEvent => e.Time - parentEvent.Time - parentEvent.ExecInterval
  | none => 0

/-- The distinct validators that have an event in the history. -/
def validatorsOf (history : List Event) : List ValidatorID :=
  (history.map Event.ValidatorID).dedup

/-- The error with which `calculate` rejects a malformed event:
`ErrUnknownEvent` when the payload is not a consensus event payload,
`ErrUnknownConsensusEventType` when it is one of an unknown type. -/
def rejection (e : Event) : Error :=
  match e.Payload with
  | Payload.other => Error.ErrUnknownEvent
  | Payload.consensus _ => Error.ErrUnknownConsensusEventType

/-- The state after the accumulation pass over `sampleHistory`, before
finalization. -/
def sampleAccumulated : Stats :=
  { ByValidator :=
      [(1, { ProposedBlockCount := 2, ReceivedBlockCount := 1,
             StronglyAckedBlockCount := 1, TotalOrderedBlockCount := 1,
             DeliveredBlockCount := 1, ProposingLatency := 9,
             ReceivingLatency := 2000000009, PrepareExecLatency := 2,
             ProcessExecLatency := 2 })],
    All := { ProposedBlockCount := 2, ReceivedBlockCount := 1,
             StronglyAckedBlockCount := 1, TotalOrderedBlockCount := 1,
             DeliveredBlockCount := 1, ProposingLatency := 9,
             ReceivingLatency := 2000000009, PrepareExecLatency := 2,
             ProcessExecLatency := 2 } }

/-- A history on which `NewStats` succeeds although validator 2 has no
parentless proposal: validator 1 has two. -/
def balancedHistory : List Event :=
  [mkPropose 1 0 1 (-1), mkPropose 1 5 1 (-1), mkPropose 1 10 1 0, mkPropose 2 20 1 0,
   mkPropose 2 30 1 3, mkReceive 1 40 2 3 7, mkReceive 2 3000000000 2 2 7]

/-- The value that `NewStats` returns on `balancedHistory` with `sampleApps`. -/
def balancedStats : Stats :=
  { ByValidator :=
      [(1, { ProposedBlockCount := 3, ReceivedBlockCount := 1,
             StronglyAckedBlockCount := 1, TotalOrderedBlockCount := 1,
             DeliveredBlockCount := 1, ProposingLatency := 4,
             ReceivingLatency := 19, PrepareExecLatency := 1,
             ProcessExecLatency := 2 }),
       (2, { ProposedBlockCount := 2, ReceivedBlockCount := 1,
             StronglyAckedBlockCount := 1, TotalOrderedBlockCount := 1,
             DeliveredBlockCount := 1, ProposingLatency := 28,
             ReceivingLatency := 2999999989, PrepareExecLatency := 1,
             ProcessExecLatency := 2 })],
    All := { ProposedBlockCount := 5, ReceivedBlockCount := 2,
             StronglyAckedBlockCount := 2, TotalOrderedBlockCount := 2,
             DeliveredBlockCount := 2, ProposingLatency := 12,
             ReceivingLatency := 1500000004, PrepareExecLatency := 1,
             ProcessExecLatency := 2 },
    BPS := { num := 1, den := 3 },
    ExecutionTime := 3000000000 }

/-- The deferred function of `Stats.calculate`, with the loop over the map
visiting the entries in the order that `order` gives them. -/
def calculateDeferredIn
    (order : List (ValidatorID × StatsSet) → List (ValidatorID × StatsSet))
    (stats : Stats) : Except Panic Stats :=
  match done stats.All (stats.ByValidator.length : Int) with
  | (_, some p) => Except.error p
  | (all, none) =>
    match doneEach (order stats.ByValidator) with
    | Except.error p => Except.error p
    | Except.ok byValidator => Except.ok { stats with All := all, ByValidator := byValidator }

/-- The method `Stats.calculate`, with the map iterated in the order `order`. -/
def calculateIn
    (order : List (ValidatorID × StatsSet) → List (ValidatorID × StatsSet))
    (stats : Stats) (history : List Event)
    (apps : ValidatorID → Option App) : Except Panic (Stats × Option Error) :=
  match calculateLoop stats history history apps with
  | (stats1, exit) =>
    match calculateDeferredIn order stats1 with
    | Except.error p => Except.error p
    | Except.ok stats2 =>
      match exit with
      | LoopExit.finished => Except.ok (stats2, none)
      | LoopExit.returned err => Except.ok (stats2, some err)
      | LoopExit.panicked p => Except.error p

/-- The method `Stats.summary`, with the map iterated in the order `order`. -/
def summaryIn
    (order : List (ValidatorID × StatsSet) → List (ValidatorID × StatsSet))
    (stats : Option Stats) (history : List Event) : Except Panic Stats :=
  match stats with
  | none => Except.error Panic.nilDereference
  | some st =>
    if (st.ByValidator.length : Int) = 0 then Except.error Panic.divideByZero
    else
      let averageConfirmedBlocks :=
        Int.tdiv (totalConfirmedBlocks (order st.ByValidator)) (st.ByValidator.length : Int)
      match historyAt history ((history.length : Int) - 1), historyAt history 0 with
      | some last, some first =>
        let executionTime := last.Time - first.Time
        let latencyAsSecond := Int.tdiv executionTime (1000 * 1000 * 1000)
        Except.ok { st with
          ExecutionTime := executionTime
          BPS := { num := averageConfirmedBlocks, den := latencyAsSecond } }
      | _, _ => Except.error Panic.indexOutOfRange

/-- The constructor `NewStats`, with the two loops over the map iterating in
the orders `order1` (finalization) and `order2` (summary). -/
def NewStatsIn
    (order1 order2 : List (ValidatorID × StatsSet) → List (ValidatorID × StatsSet))
    (history : List Event) (apps : ValidatorID → Option App) :
    Except Panic (Option Stats × Option Error) :=
  match calculateIn order1 {} history apps with
  | Except.error p => Except.error p
  | Except.ok (stats, err) =>
    let stats1 : Option Stats := if err ≠ none then none else some stats
    match summaryIn order2 stats1 history with
    | Except.error p => Except.error p
    | Except.ok stats2 => Except.ok (some stats2, err)

/-- Two statistics with the same content: the same `All`, `BPS` and
`ExecutionTime`, and the same entries in `ByValidator`. -/
def sameStats (s1 s2 : Stats) : Prop :=
  s1.All = s2.All ∧ s1.BPS = s2.BPS ∧ s1.ExecutionTime = s2.ExecutionTime ∧
  s1.ByValidator.Perm s2.ByValidator

/-- Two runs of `NewStats` with the same outcome: the same panic, or the same
error and statistics with the same content. -/
def sameResult (r1 r2 : Except Panic (Option Stats × Option Error)) : Prop :=
  match r1, r2 with
  | Except.error p, Except.error q => p = q
  | Except.ok (some s1, e1), Except.ok (some s2, e2) => e1 = e2 ∧ sameStats s1 s2
  | Except.ok (none, e1), Except.ok (none, e2) => e1 = e2
  | _, _ => False

/-- An event with a consensus payload whose type is neither propose nor
receive. -/
def unknownTypeEvent : Event :=
  { ValidatorID := 1, Time := 0, ExecInterval := 0, ParentHistoryIndex := -1,
    Payload := Payload.consensus
      { Typ := consensusEventType.unknown 7, PiggyBack := PiggyBack.other } }

/-- A history whose accumulation pass ends normally and in which validator 2
has only a receive event: validator 1 proposes three times (once without
parent) and receives block 7, validator 2 receives block 7. -/
def receiveOnlyHistory : List Event :=
  [mkPropose 1 0 1 (-1), mkPropose 1 10 1 0, mkPropose 1 20 1 1,
   mkReceive 1 30 2 2 7, mkReceive 2 40 2 2 7]

/-! ## Slice access -/

theorem historyAt_natCast (history : List Event) (p : Nat) (parent : Event)
    (hpar : history[p]? = some parent) : historyAt history (p : Int) = some parent := by
  unfold historyAt
  have h0 : ¬ ((p : Int) < 0) := by omega
  simp [h0, hpar]

/-! ## Accumulation of one event into one set -/

theorem checker_frame (block : Block) (app : App) (s : StatsSet) :
    (checker block app s).ProposedBlockCount = s.ProposedBlockCount ∧
    (checker block app s).ReceivedBlockCount = s.ReceivedBlockCount ∧
    (checker block app s).ProposingLatency = s.ProposingLatency ∧
    (checker block app s).ReceivingLatency = s.ReceivingLatency ∧
    (checker block app s).PrepareExecLatency = s.PrepareExecLatency ∧
    (checker block app s).ProcessExecLatency = s.ProcessExecLatency := by
  unfold checker
  split_ifs <;> simp

/-- C2: on a receive event for the block with hash `h` (parent index valid,
oracle present), `newBlockReceiveEvent` returns normally and adds one to
`StronglyAckedBlockCount` iff `h` is acked, one to `TotalOrderedBlockCount` iff
`h` is acked and totally ordered, one to `DeliveredBlockCount` iff `h` is
acked, totally ordered and delivered; otherwise the counter is unchanged. -/
theorem newBlockReceiveEvent_funnel (s : StatsSet) (e : Event)
    (payload : consensusEventPayload) (history : List Event) (app : App)
    (h : Hash) (p : Nat) (parent : Event) (hp : e.ParentHistoryIndex = (p : Int))
    (hpar : history[p]? = some parent) (hb : payload.PiggyBack = PiggyBack.block ⟨h⟩) :
    (newBlockReceiveEvent s e payload history (some app)).2 = none ∧
    (newBlockReceiveEvent s e payload history (some app)).1.StronglyAckedBlockCount =
        s.StronglyAckedBlockCount + (if h ∈ app.Acked then 1 else 0) ∧
    (newBlockReceiveEvent s e payload history (some app)).1.TotalOrderedBlockCount =
        s.TotalOrderedBlockCount +
          (if h ∈ app.Acked ∧ h ∈ app.TotalOrderedByHash then 1 else 0) ∧
    (newBlockReceiveEvent s e payload history (some app)).1.DeliveredBlockCount =
        s.DeliveredBlockCount +
          (if h ∈ app.Acked ∧ h ∈ app.TotalOrderedByHash ∧ h ∈ app.Delivered
            then 1 else 0) := by
  unfold newBlockReceiveEvent
  rw [hp, historyAt_natCast history p parent hpar]
  simp only [hb, Check, checker]
  by_cases h1 : h ∈ app.Acked <;> by_cases h2 : h ∈ app.TotalOrderedByHash <;>
    by_cases h3 : h ∈ app.Delivered <;> simp [h1, h2, h3]

/-- C2, at a block that is totally ordered and delivered but not acked: the
strongly-acked counter does not move. -/
theorem newBlockReceiveEvent_funnel_witness :
    (mkReceive 1 5 2 0 7).ParentHistoryIndex = ((0 : Nat) : Int) ∧
    scenarioHistory[0]? = some (mkPropose 1 0 1 (-1)) ∧
    (newBlockReceiveEvent {} (mkReceive 1 5 2 0 7)
        { Typ := consensusEventType.evtReceiveBlock, PiggyBack := PiggyBack.block ⟨7⟩ }
        scenarioHistory (some unackedApp)).1.StronglyAckedBlockCount
      = 0 + (if (7 : Hash) ∈ unackedApp.Acked then 1 else 0) :=
  ⟨rfl, rfl,
    (newBlockReceiveEvent_funnel {} (mkReceive 1 5 2 0 7)
      { Typ := consensusEventType.evtReceiveBlock, PiggyBack := PiggyBack.block ⟨7⟩ }
      scenarioHistory unackedApp 7 0 (mkPropose 1 0 1 (-1)) rfl rfl rfl).2.1⟩

/-- C3: on a propose event whose `ParentHistoryIndex` is the valid index `p`
(with `parent` the history entry at `p`), `newBlockProposeEvent` returns
normally, adds `(e.Time - parent.Time) - parent.ExecInterval` to
`ProposingLatency`, adds `e.ExecInterval` to `PrepareExecLatency`, adds one to
`ProposedBlockCount` and leaves every other field as it was. -/
theorem newBlockProposeEvent_parent (s : StatsSet) (e : Event)
    (payload : consensusEventPayload) (history : List Event) (p : Nat) (parent : Event)
    (hp : e.ParentHistoryIndex = (p : Int)) (hpar : history[p]? = some parent) :
    newBlockProposeEvent s e payload history =
      ({ ProposedBlockCount := s.ProposedBlockCount + 1
         ReceivedBlockCount := s.ReceivedBlockCount
         StronglyAckedBlockCount := s.StronglyAckedBlockCount
         TotalOrderedBlockCount := s.TotalOrderedBlockCount
         DeliveredBlockCount := s.DeliveredBlockCount
         ProposingLatency :=
           s.ProposingLatency + (e.Time - parent.Time) - parent.ExecInterval
         ReceivingLatency := s.ReceivingLatency
         PrepareExecLatency := s.PrepareExecLatency + e.ExecInterval
         ProcessExecLatency := s.ProcessExecLatency }, none) := by
  have hne : e.ParentHistoryIndex ≠ -1 := by omega
  unfold newBlockProposeEvent
  rw [if_pos hne, hp, historyAt_natCast history p parent hpar]
  simp only [Prod.mk.injEq, and_true, StatsSet.mk.injEq, true_and]
  ring

/-- C3, at the second proposal of the sample history (parent index 0). -/
theorem newBlockProposeEvent_parent_witness :
    (mkPropose 1 10 1 0).ParentHistoryIndex = ((0 : Nat) : Int) ∧
    sampleHistory[0]? = some (mkPropose 1 0 1 (-1)) ∧
    newBlockProposeEvent { ProposedBlockCount := 1, PrepareExecLatency := 1 }
        (mkPropose 1 10 1 0)
        { Typ := consensusEventType.evtProposeBlock, PiggyBack := PiggyBack.other }
        sampleHistory
      = ({ ProposedBlockCount := 2, ProposingLatency := 9, PrepareExecLatency := 2 },
          none) :=
  ⟨rfl, rfl,
    newBlockProposeEvent_parent { ProposedBlockCount := 1, PrepareExecLatency := 1 }
      (mkPropose 1 10 1 0)
      { Typ := consensusEventType.evtProposeBlock, PiggyBack := PiggyBack.other }
      sampleHistory 0 (mkPropose 1 0 1 (-1)) rfl rfl⟩

/-- C4: on a receive event whose `ParentHistoryIndex` is the valid index `p`
(with `parent` the history entry at `p`), the set left by
`newBlockReceiveEvent` has `(e.Time - parent.Time) - parent.ExecInterval` added
to `ReceivingLatency`, `e.ExecInterval` added to `ProcessExecLatency`, one
added to `ReceivedBlockCount`, and `ProposedBlockCount`, `ProposingLatency` and
`PrepareExecLatency` as before, whatever the piggyback and the oracle are
(absent oracle included). -/
theorem newBlockReceiveEvent_parent (s : StatsSet) (e : Event)
    (payload : consensusEventPayload) (history : List Event) (app : Option App)
    (p : Nat) (parent : Event) (hp : e.ParentHistoryIndex = (p : Int))
    (hpar : history[p]? = some parent) :
    (newBlockReceiveEvent s e payload history app).1.ReceivingLatency =
        s.ReceivingLatency + (e.Time - parent.Time) - parent.ExecInterval ∧
    (newBlockReceiveEvent s e payload history app).1.ProcessExecLatency =
        s.ProcessExecLatency + e.ExecInterval ∧
    (newBlockReceiveEvent s e payload history app).1.ReceivedBlockCount =
        s.ReceivedBlockCount + 1 ∧
    (newBlockReceiveEvent s e payload history app).1.ProposedBlockCount =
        s.ProposedBlockCount ∧
    (newBlockReceiveEvent s e payload history app).1.ProposingLatency =
        s.ProposingLatency ∧
    (newBlockReceiveEvent s e payload history app).1.PrepareExecLatency =
        s.PrepareExecLatency := by
  unfold newBlockReceiveEvent
  rw [hp, historyAt_natCast history p parent hpar]
  cases hpb : payload.PiggyBack with
  | other => simp; ring
  | block b =>
    cases app with
    | none => simp [Check]; ring
    | some a =>
      simp only [Check]
      obtain ⟨h1, h2, h3, h4, h5, h6⟩ := checker_frame b a
        { s with
          ReceivingLatency :=
            s.ReceivingLatency + (e.Time - parent.Time - parent.ExecInterval)
          ProcessExecLatency := s.ProcessExecLatency + e.ExecInterval
          ReceivedBlockCount := s.ReceivedBlockCount + 1 }
      rw [h1, h2, h3, h4, h5, h6]
      simp; ring

/-- C4, at the receive event of the sample history (parent index 1). -/
theorem newBlockReceiveEvent_parent_witness :
    (mkReceive 1 2000000020 2 1 7).ParentHistoryIndex = ((1 : Nat) : Int) ∧
    sampleHistory[1]? = some (mkPropose 1 10 1 0) ∧
    (newBlockReceiveEvent {} (mkReceive 1 2000000020 2 1 7)
        { Typ := consensusEventType.evtReceiveBlock, PiggyBack := PiggyBack.block ⟨7⟩ }
        sampleHistory (some fullApp)).1.ReceivingLatency
      = 0 + (2000000020 - 10) - 1 :=
  ⟨rfl, rfl,
    (newBlockReceiveEvent_parent {} (mkReceive 1 2000000020 2 1 7)
      { Typ := consensusEventType.evtReceiveBlock, PiggyBack := PiggyBack.block ⟨7⟩ }
      sampleHistory (some fullApp) 1 (mkPropose 1 10 1 0) rfl rfl).1⟩


/-! ## The per-validator map -/

theorem lookupSet_storeSet_self (bv : List (ValidatorID × StatsSet)) (v : ValidatorID)
    (s t : StatsSet) (h : lookupSet bv v = some s) :
    lookupSet (storeSet bv v t) v = some t := by
  induction bv with
  | nil => simp [lookupSet] at h
  | cons kv rest ih =>
    obtain ⟨k, u⟩ := kv
    by_cases hk : k = v
    · simp [storeSet, lookupSet, hk]
    · simp only [lookupSet, hk, if_false] at h
      simp [storeSet, lookupSet, hk, ih h]

theorem lookupSet_append_new (bv : List (ValidatorID × StatsSet)) (v : ValidatorID)
    (t : StatsSet) (h : lookupSet bv v = none) :
    lookupSet (bv ++ [(v, t)]) v = some t := by
  induction bv with
  | nil => simp [lookupSet]
  | cons kv rest ih =>
    obtain ⟨k, u⟩ := kv
    by_cases hk : k = v
    · simp [lookupSet, hk] at h
    · simp only [lookupSet, hk, if_false] at h
      simp [lookupSet, hk, ih h]

theorem storeSet_append_new (bv : List (ValidatorID × StatsSet)) (v : ValidatorID)
    (s t : StatsSet) (h : lookupSet bv v = none) :
    storeSet (bv ++ [(v, s)]) v t = bv ++ [(v, t)] := by
  induction bv with
  | nil => simp [storeSet]
  | cons kv rest ih =>
    obtain ⟨k, u⟩ := kv
    by_cases hk : k = v
    · simp [lookupSet, hk] at h
    · simp only [lookupSet, hk, if_false] at h
      simp [storeSet, hk, ih h]

/-- The set that `getStatsSetByValidator` hands out is the stored one, or the
empty one; afterwards the key is present with that set. -/
theorem getStatsSetByValidator_spec (stats : Stats) (v : ValidatorID) :
    (getStatsSetByValidator stats v).2 = (lookupSet stats.ByValidator v).getD {} ∧
    lookupSet (getStatsSetByValidator stats v).1.ByValidator v
      = some (getStatsSetByValidator stats v).2 ∧
    (getStatsSetByValidator stats v).1.All = stats.All := by
  unfold getStatsSetByValidator
  cases h : lookupSet stats.ByValidator v with
  | none => simp [lookupSet_append_new _ _ _ h]
  | some s => simp [h]

theorem newBlockProposeEvent_no_parent (s : StatsSet) (e : Event)
    (payload : consensusEventPayload) (history : List Event)
    (hpar : e.ParentHistoryIndex = -1) :
    newBlockProposeEvent s e payload history =
      ({ s with
          PrepareExecLatency := s.PrepareExecLatency + e.ExecInterval
          ProposedBlockCount := s.ProposedBlockCount + 1 }, none) := by
  unfold newBlockProposeEvent
  simp [hpar]

/-- C10: in the accumulation pass, a propose event of validator `v` without a
parent (`ParentHistoryIndex = -1`) lets the loop go on, leaves
`ProposingLatency` as it was and adds exactly one to `ProposedBlockCount`, in
`All` and in the set of `v` (created empty if `v` had none). -/
theorem calculateEvent_propose_no_parent (stats : Stats) (e : Event)
    (payload : consensusEventPayload) (history : List Event)
    (apps : ValidatorID → Option App)
    (hpl : e.Payload = Payload.consensus payload)
    (ht : payload.Typ = consensusEventType.evtProposeBlock)
    (hpar : e.ParentHistoryIndex = -1) :
    (calculateEvent stats e history apps).2 = LoopExit.finished ∧
    (calculateEvent stats e history apps).1.All.ProposingLatency
      = stats.All.ProposingLatency ∧
    (calculateEvent stats e history apps).1.All.ProposedBlockCount
      = stats.All.ProposedBlockCount + 1 ∧
    ∃ s1, lookupSet (calculateEvent stats e history apps).1.ByValidator e.ValidatorID
        = some s1 ∧
      s1.ProposingLatency
        = ((lookupSet stats.ByValidator e.ValidatorID).getD {}).ProposingLatency ∧
      s1.ProposedBlockCount
        = ((lookupSet stats.ByValidator e.ValidatorID).getD {}).ProposedBlockCount + 1 := by
  obtain ⟨hg1, hg2, hg3⟩ :=
    getStatsSetByValidator_spec
      { stats with All := (newBlockProposeEvent stats.All e payload history).1 } e.ValidatorID
  unfold calculateEvent
  simp only [hpl, ht, newBlockProposeEvent_no_parent _ e payload history hpar]
    at hg1 hg2 hg3 ⊢
  refine ⟨trivial, ?_, ?_, _, lookupSet_storeSet_self _ _ _ _ hg2, ?_, ?_⟩
  · rw [hg3]
  · rw [hg3]
  · rw [hg1]
  · rw [hg1]

/-- C10, at the first proposal of validator 1 in the sample history. -/
theorem calculateEvent_propose_no_parent_witness :
    (mkPropose 1 0 1 (-1)).Payload = Payload.consensus
      { Typ := consensusEventType.evtProposeBlock, PiggyBack := PiggyBack.other } ∧
    (mkPropose 1 0 1 (-1)).ParentHistoryIndex = -1 ∧
    (calculateEvent {} (mkPropose 1 0 1 (-1)) sampleHistory sampleApps).1.All.ProposedBlockCount
      = 0 + 1 :=
  ⟨rfl, rfl,
    (calculateEvent_propose_no_parent {} (mkPropose 1 0 1 (-1))
      { Typ := consensusEventType.evtProposeBlock, PiggyBack := PiggyBack.other }
      sampleHistory sampleApps rfl rfl rfl).2.2.1⟩


/-! ## Finalization -/

theorem done_counters (s : StatsSet) (n : Int) :
    (done s n).1.ProposedBlockCount = s.ProposedBlockCount ∧
    (done s n).1.ReceivedBlockCount = s.ReceivedBlockCount ∧
    (done s n).1.StronglyAckedBlockCount = s.StronglyAckedBlockCount ∧
    (done s n).1.TotalOrderedBlockCount = s.TotalOrderedBlockCount ∧
    (done s n).1.DeliveredBlockCount = s.DeliveredBlockCount := by
  unfold done
  dsimp only
  split_ifs <;> simp

theorem done_eq_of_ne (s : StatsSet) (adjustment : Int)
    (hp : s.ProposedBlockCount - adjustment ≠ 0) (hr : s.ReceivedBlockCount ≠ 0)
    (hq : s.ProposedBlockCount ≠ 0) :
    done s adjustment =
      ({ ProposedBlockCount := s.ProposedBlockCount
         ReceivedBlockCount := s.ReceivedBlockCount
         StronglyAckedBlockCount := s.StronglyAckedBlockCount
         TotalOrderedBlockCount := s.TotalOrderedBlockCount
         DeliveredBlockCount := s.DeliveredBlockCount
         ProposingLatency :=
           Int.tdiv s.ProposingLatency (s.ProposedBlockCount - adjustment)
         ReceivingLatency := Int.tdiv s.ReceivingLatency s.ReceivedBlockCount
         PrepareExecLatency := Int.tdiv s.PrepareExecLatency s.ProposedBlockCount
         ProcessExecLatency := Int.tdiv s.ProcessExecLatency s.ReceivedBlockCount },
        none) := by
  unfold done
  simp [hp, hr, hq]

theorem doneEach_ok (bv bv1 : List (ValidatorID × StatsSet))
    (h : doneEach bv = Except.ok bv1) :
    bv1 = bv.map (fun kv => (kv.1, (done kv.2 1).1)) ∧
    ∀ kv ∈ bv, (done kv.2 1).2 = none := by
  induction bv generalizing bv1 with
  | nil =>
    simp only [doneEach, Except.ok.injEq] at h
    simp [← h]
  | cons kv rest ih =>
    obtain ⟨k, s⟩ := kv
    unfold doneEach at h
    rcases hd : done s 1 with ⟨s1, _ | p⟩
    · rw [hd] at h
      simp only at h
      cases hr : doneEach rest with
      | error p => rw [hr] at h; simp at h
      | ok rest1 =>
        rw [hr] at h
        simp only [Except.ok.injEq] at h
        obtain ⟨h1, h2⟩ := ih rest1 hr
        subst h
        constructor
        · simp [hd, h1]
        · intro kv hkv
          rcases List.mem_cons.mp hkv with rfl | hm
          · simp [hd]
          · exact h2 kv hm
    · rw [hd] at h
      simp at h

theorem calculateDeferred_ok (stats st : Stats) (h : calculateDeferred stats = Except.ok st) :
    st.All = (done stats.All (stats.ByValidator.length : Int)).1 ∧
    (done stats.All (stats.ByValidator.length : Int)).2 = none ∧
    st.ByValidator = stats.ByValidator.map (fun kv => (kv.1, (done kv.2 1).1)) ∧
    (∀ kv ∈ stats.ByValidator, (done kv.2 1).2 = none) ∧
    st.BPS = stats.BPS ∧ st.ExecutionTime = stats.ExecutionTime := by
  unfold calculateDeferred at h
  rcases hd : done stats.All (stats.ByValidator.length : Int) with ⟨all, _ | p⟩
  · rw [hd] at h
    simp only at h
    cases hr : doneEach stats.ByValidator with
    | error p => rw [hr] at h; simp at h
    | ok bv1 =>
      rw [hr] at h
      simp only [Except.ok.injEq] at h
      obtain ⟨h1, h2⟩ := doneEach_ok _ _ hr
      subst h
      exact ⟨rfl, rfl, h1, h2, rfl, rfl⟩
  · rw [hd] at h
    simp at h

theorem calculate_ok (stats st : Stats) (history : List Event)
    (apps : ValidatorID → Option App) (err : Option Error)
    (h : calculate stats history apps = Except.ok (st, err)) :
    calculateDeferred (calculateLoop stats history history apps).1 = Except.ok st ∧
    ((calculateLoop stats history history apps).2 = LoopExit.finished ∧ err = none ∨
      ∃ e, (calculateLoop stats history history apps).2 = LoopExit.returned e ∧
        err = some e) := by
  unfold calculate at h
  rcases hl : calculateLoop stats history history apps with ⟨stats1, exit⟩
  rw [hl] at h
  simp only at h
  cases hd : calculateDeferred stats1 with
  | error p => rw [hd] at h; simp at h
  | ok stats2 =>
    rw [hd] at h
    cases exit with
    | finished =>
      simp only [Except.ok.injEq, Prod.mk.injEq] at h
      simp [h.1, h.2]
    | returned e =>
      simp only [Except.ok.injEq, Prod.mk.injEq] at h
      simp [h.1, ← h.2]
    | panicked p => simp at h

/-- C5: with nonzero divisors `done adjustment` returns normally, replaces the
four latencies by their quotients (truncated toward zero) by
`ProposedBlockCount - adjustment`, `ReceivedBlockCount`, `ProposedBlockCount`
and `ReceivedBlockCount`, and keeps the five counters; and when `calculate`
returns, its `All` is `done` applied once to the accumulated `All` with the
number of entries of `ByValidator`, and every per-validator set is `done`
applied once to the accumulated set with adjustment 1, each call returning
normally. -/
theorem done_averages (s : StatsSet) (adjustment : Int)
    (hp : s.ProposedBlockCount - adjustment ≠ 0) (hr : s.ReceivedBlockCount ≠ 0)
    (hq : s.ProposedBlockCount ≠ 0)
    (stats st : Stats) (history : List Event) (apps : ValidatorID → Option App)
    (err : Option Error) (hc : calculate stats history apps = Except.ok (st, err)) :
    done s adjustment =
      ({ ProposedBlockCount := s.ProposedBlockCount
         ReceivedBlockCount := s.ReceivedBlockCount
         StronglyAckedBlockCount := s.StronglyAckedBlockCount
         TotalOrderedBlockCount := s.TotalOrderedBlockCount
         DeliveredBlockCount := s.DeliveredBlockCount
         ProposingLatency :=
           Int.tdiv s.ProposingLatency (s.ProposedBlockCount - adjustment)
         ReceivingLatency := Int.tdiv s.ReceivingLatency s.ReceivedBlockCount
         PrepareExecLatency := Int.tdiv s.PrepareExecLatency s.ProposedBlockCount
         ProcessExecLatency := Int.tdiv s.ProcessExecLatency s.ReceivedBlockCount },
        none) ∧
    st.All =
      (done (calculateLoop stats history history apps).1.All
        ((calculateLoop stats history history apps).1.ByValidator.length : Int)).1 ∧
    (done (calculateLoop stats history history apps).1.All
        ((calculateLoop stats history history apps).1.ByValidator.length : Int)).2 = none ∧
    st.ByValidator =
      (calculateLoop stats history history apps).1.ByValidator.map
        (fun kv => (kv.1, (done kv.2 1).1)) ∧
    ∀ kv ∈ (calculateLoop stats history history apps).1.ByValidator,
      (done kv.2 1).2 = none := by
  obtain ⟨hd, _⟩ := calculate_ok stats st history apps err hc
  obtain ⟨h1, h2, h3, h4, _, _⟩ := calculateDeferred_ok _ _ hd
  exact ⟨done_eq_of_ne s adjustment hp hr hq, h1, h2, h3, h4⟩

/-- C5, at the accumulated `All` of the sample history. -/
theorem done_averages_witness :
    calculate {} sampleHistory sampleApps
      = Except.ok
          ({ ByValidator :=
               [(1, { ProposedBlockCount := 2, ReceivedBlockCount := 1,
                      StronglyAckedBlockCount := 1, TotalOrderedBlockCount := 1,
                      DeliveredBlockCount := 1, ProposingLatency := 9,
                      ReceivingLatency := 2000000009, PrepareExecLatency := 1,
                      ProcessExecLatency := 2 })],
             All := { ProposedBlockCount := 2, ReceivedBlockCount := 1,
                      StronglyAckedBlockCount := 1, TotalOrderedBlockCount := 1,
                      DeliveredBlockCount := 1, ProposingLatency := 9,
                      ReceivingLatency := 2000000009, PrepareExecLatency := 1,
                      ProcessExecLatency := 2 } }, none) ∧
    done { ProposedBlockCount := 2, ReceivedBlockCount := 1, ProposingLatency := 9,
           ReceivingLatency := 2000000009, PrepareExecLatency := 2,
           ProcessExecLatency := 2 } 1
      = ({ ProposedBlockCount := 2, ReceivedBlockCount := 1,
           ProposingLatency := Int.tdiv 9 (2 - 1),
           ReceivingLatency := Int.tdiv 2000000009 1,
           PrepareExecLatency := Int.tdiv 2 2,
           ProcessExecLatency := Int.tdiv 2 1 }, none) :=
  ⟨rfl,
    (done_averages
      { ProposedBlockCount := 2, ReceivedBlockCount := 1, ProposingLatency := 9,
        ReceivingLatency := 2000000009, PrepareExecLatency := 2,
        ProcessExecLatency := 2 } 1 (by decide) (by decide) (by decide)
      {} _ sampleHistory sampleApps none rfl).1⟩


/-! ## The confirmation funnel is ordered -/

theorem funnelOrdered_empty : funnelOrdered {} := by
  unfold funnelOrdered; decide

theorem funnelOrdered_newBlockProposeEvent (s : StatsSet) (e : Event)
    (payload : consensusEventPayload) (history : List Event) (h : funnelOrdered s) :
    funnelOrdered (newBlockProposeEvent s e payload history).1 := by
  unfold funnelOrdered at h ⊢
  unfold newBlockProposeEvent
  split_ifs
  · cases historyAt history e.ParentHistoryIndex <;> simpa using h
  · simpa using h

theorem funnelOrdered_checker (block : Block) (app : App) (s : StatsSet)
    (h : s.DeliveredBlockCount ≤ s.TotalOrderedBlockCount ∧
      s.TotalOrderedBlockCount ≤ s.StronglyAckedBlockCount ∧
      s.StronglyAckedBlockCount + 1 ≤ s.ReceivedBlockCount) :
    funnelOrdered (checker block app s) := by
  unfold funnelOrdered checker
  dsimp only
  split_ifs <;> (try simp only) <;> omega

theorem funnelOrdered_newBlockReceiveEvent (s : StatsSet) (e : Event)
    (payload : consensusEventPayload) (history : List Event) (app : Option App)
    (h : funnelOrdered s) :
    funnelOrdered (newBlockReceiveEvent s e payload history app).1 := by
  unfold newBlockReceiveEvent
  cases historyAt history e.ParentHistoryIndex with
  | none => simpa using h
  | some parent =>
    unfold funnelOrdered at h
    cases payload.PiggyBack with
    | other => simp only [funnelOrdered]; omega
    | block b =>
      cases app with
      | none => simp only [Check, funnelOrdered]; omega
      | some a =>
        simp only [Check]
        apply funnelOrdered_checker
        simp only
        omega

theorem funnelOrdered_done (s : StatsSet) (n : Int) (h : funnelOrdered s) :
    funnelOrdered (done s n).1 := by
  obtain ⟨_, h2, h3, h4, h5⟩ := done_counters s n
  unfold funnelOrdered at h ⊢
  rw [h2, h3, h4, h5]
  exact h

theorem mem_of_lookupSet (bv : List (ValidatorID × StatsSet)) (v : ValidatorID)
    (s : StatsSet) (h : lookupSet bv v = some s) : (v, s) ∈ bv := by
  induction bv with
  | nil => simp [lookupSet] at h
  | cons kv rest ih =>
    obtain ⟨k, u⟩ := kv
    by_cases hk : k = v
    · simp only [lookupSet, hk, if_true, Option.some.injEq] at h
      simp [hk, h]
    · simp only [lookupSet, hk, if_false] at h
      exact List.mem_cons_of_mem _ (ih h)

theorem mem_storeSet (bv : List (ValidatorID × StatsSet)) (v : ValidatorID)
    (t : StatsSet) (kv : ValidatorID × StatsSet) (h : kv ∈ storeSet bv v t) :
    kv ∈ bv ∨ kv = (v, t) := by
  induction bv with
  | nil => simp [storeSet] at h
  | cons hd rest ih =>
    obtain ⟨k, u⟩ := hd
    by_cases hk : k = v
    · simp only [storeSet, hk, if_true, List.mem_cons] at h
      rcases h with h | h
      · exact Or.inr h
      · exact Or.inl (List.mem_cons_of_mem _ h)
    · simp only [storeSet, hk, if_false, List.mem_cons] at h
      rcases h with h | h
      · exact Or.inl (by simp [h])
      · rcases ih h with h1 | h1
        · exact Or.inl (List.mem_cons_of_mem _ h1)
        · exact Or.inr h1

theorem statsOrdered_getStatsSetByValidator (stats : Stats) (v : ValidatorID)
    (h : statsOrdered stats) :
    statsOrdered (getStatsSetByValidator stats v).1 ∧
    funnelOrdered (getStatsSetByValidator stats v).2 := by
  unfold getStatsSetByValidator
  cases hl : lookupSet stats.ByValidator v with
  | some s => exact ⟨h, h.2 _ (mem_of_lookupSet _ _ _ hl)⟩
  | none =>
    refine ⟨⟨h.1, ?_⟩, funnelOrdered_empty⟩
    intro kv hkv
    simp only [List.mem_append, List.mem_singleton] at hkv
    rcases hkv with hkv | rfl
    · exact h.2 kv hkv
    · exact funnelOrdered_empty

theorem statsOrdered_storeSet (stats : Stats) (v : ValidatorID) (t : StatsSet)
    (h : statsOrdered stats) (ht : funnelOrdered t) :
    statsOrdered { stats with ByValidator := storeSet stats.ByValidator v t } := by
  refine ⟨h.1, ?_⟩
  intro kv hkv
  rcases mem_storeSet _ _ _ _ hkv with h1 | rfl
  · exact h.2 kv h1
  · exact ht

theorem statsOrdered_calculateEvent (stats : Stats) (e : Event) (history : List Event)
    (apps : ValidatorID → Option App) (h : statsOrdered stats) :
    statsOrdered (calculateEvent stats e history apps).1 := by
  unfold calculateEvent
  cases e.Payload with
  | other => exact h
  | consensus payload =>
    dsimp only
    cases payload.Typ with
    | unknown tag => exact h
    | evtProposeBlock =>
      dsimp only
      have hall := funnelOrdered_newBlockProposeEvent stats.All e payload history h.1
      rcases ha : newBlockProposeEvent stats.All e payload history with ⟨all, _ | p⟩
      · rw [ha] at hall
        dsimp only
        have hst : statsOrdered { stats with All := all } := ⟨hall, h.2⟩
        obtain ⟨hg1, hg2⟩ := statsOrdered_getStatsSetByValidator _ e.ValidatorID hst
        have hs := funnelOrdered_newBlockProposeEvent _ e payload history hg2
        rcases hb : newBlockProposeEvent
          (getStatsSetByValidator { stats with All := all } e.ValidatorID).2
          e payload history with ⟨s1, _ | p⟩
        · rw [hb] at hs
          exact statsOrdered_storeSet _ _ _ hg1 hs
        · rw [hb] at hs
          exact statsOrdered_storeSet _ _ _ hg1 hs
      · rw [ha] at hall
        exact ⟨hall, h.2⟩
    | evtReceiveBlock =>
      dsimp only
      have hall := funnelOrdered_newBlockReceiveEvent stats.All e payload history
        (apps e.ValidatorID) h.1
      rcases ha : newBlockReceiveEvent stats.All e payload history (apps e.ValidatorID)
        with ⟨all, _ | p⟩
      · rw [ha] at hall
        dsimp only
        have hst : statsOrdered { stats with All := all } := ⟨hall, h.2⟩
        obtain ⟨hg1, hg2⟩ := statsOrdered_getStatsSetByValidator _ e.ValidatorID hst
        have hs := funnelOrdered_newBlockReceiveEvent _ e payload history
          (apps e.ValidatorID) hg2
        rcases hb : newBlockReceiveEvent
          (getStatsSetByValidator { stats with All := all } e.ValidatorID).2
          e payload history (apps e.ValidatorID) with ⟨s1, _ | p⟩
        · rw [hb] at hs
          exact statsOrdered_storeSet _ _ _ hg1 hs
        · rw [hb] at hs
          exact statsOrdered_storeSet _ _ _ hg1 hs
      · rw [ha] at hall
        exact ⟨hall, h.2⟩

theorem statsOrdered_calculateLoop (rest : List Event) (stats : Stats)
    (history : List Event) (apps : ValidatorID → Option App) (h : statsOrdered stats) :
    statsOrdered (calculateLoop stats rest history apps).1 := by
  induction rest generalizing stats with
  | nil => exact h
  | cons e rest1 ih =>
    unfold calculateLoop
    have he := statsOrdered_calculateEvent stats e history apps h
    rcases hc : calculateEvent stats e history apps with ⟨stats1, exit⟩
    rw [hc] at he
    cases exit with
    | finished => exact ih stats1 he
    | returned err => exact he
    | panicked p => exact he

theorem statsOrdered_calculateDeferred (stats st : Stats)
    (hd : calculateDeferred stats = Except.ok st) (h : statsOrdered stats) :
    statsOrdered st := by
  obtain ⟨h1, _, h3, _, _, _⟩ := calculateDeferred_ok stats st hd
  refine ⟨?_, ?_⟩
  · rw [h1]; exact funnelOrdered_done _ _ h.1
  · intro kv hkv
    rw [h3] at hkv
    obtain ⟨kv0, hm, rfl⟩ := List.mem_map.mp hkv
    exact funnelOrdered_done _ _ (h.2 kv0 hm)

theorem summary_ok (stats : Option Stats) (history : List Event) (st : Stats)
    (h : summary stats history = Except.ok st) :
    ∃ st0, stats = some st0 ∧ st.All = st0.All ∧ st.ByValidator = st0.ByValidator := by
  unfold summary at h
  cases stats with
  | none => simp at h
  | some st0 =>
    refine ⟨st0, rfl, ?_⟩
    dsimp only at h
    split_ifs at h
    split at h
    · simp only [Except.ok.injEq] at h
      subst h
      exact ⟨rfl, rfl⟩
    · simp at h

theorem NewStats_ok (history : List Event) (apps : ValidatorID → Option App)
    (st : Option Stats) (err : Option Error)
    (h : NewStats history apps = Except.ok (st, err)) :
    err = none ∧ ∃ st0 st1, calculate {} history apps = Except.ok (st0, none) ∧
      summary (some st0) history = Except.ok st1 ∧ st = some st1 := by
  unfold NewStats at h
  cases hc : calculate {} history apps with
  | error p => rw [hc] at h; simp at h
  | ok r =>
    obtain ⟨st0, err0⟩ := r
    rw [hc] at h
    dsimp only at h
    cases err0 with
    | some e0 => simp [summary] at h
    | none =>
      simp only [ne_eq, not_true_eq_false, if_false] at h
      cases hs : summary (some st0) history with
      | error p => rw [hs] at h; simp at h
      | ok st1 =>
        rw [hs] at h
        simp only [Except.ok.injEq, Prod.mk.injEq] at h
        exact ⟨h.2.symm, st0, st1, rfl, hs, h.1.symm⟩

/-- C1: whenever `NewStats` returns a `Stats` value, `All` and every entry of
`ByValidator` satisfy `DeliveredBlockCount ≤ TotalOrderedBlockCount ≤
StronglyAckedBlockCount ≤ ReceivedBlockCount`, for any history and any oracle
content. -/
theorem NewStats_funnelOrdered (history : List Event) (apps : ValidatorID → Option App)
    (st : Stats) (err : Option Error)
    (h : NewStats history apps = Except.ok (some st, err)) :
    funnelOrdered st.All ∧ ∀ kv ∈ st.ByValidator, funnelOrdered kv.2 := by
  obtain ⟨_, st0, st1, hc, hs, hst⟩ := NewStats_ok history apps (some st) err h
  obtain ⟨hd, _⟩ := calculate_ok {} st0 history apps none hc
  have h0 : statsOrdered ({} : Stats) := ⟨funnelOrdered_empty, by intro kv hkv; cases hkv⟩
  have h1 := statsOrdered_calculateDeferred _ _ hd
    (statsOrdered_calculateLoop history {} history apps h0)
  obtain ⟨st2, he, ha, hb⟩ := summary_ok _ _ _ hs
  cases he
  cases hst
  unfold statsOrdered at h1
  rw [ha, hb]
  exact h1

/-- C1, at the sample history, on which `NewStats` returns `sampleStats`. -/
theorem NewStats_funnelOrdered_witness :
    NewStats sampleHistory sampleApps = Except.ok (some sampleStats, none) ∧
    funnelOrdered sampleStats.All ∧
    ∀ kv ∈ sampleStats.ByValidator, funnelOrdered kv.2 :=
  ⟨rfl, NewStats_funnelOrdered sampleHistory sampleApps sampleStats none rfl⟩


/-! ## `All` counts what the per-validator sets count -/

theorem IsCounter_empty (f : StatsSet → Int) (hf : IsCounter f) : f {} = 0 := by
  rcases hf with rfl | rfl | rfl | rfl | rfl <;> rfl

theorem IsCounter_done (f : StatsSet → Int) (hf : IsCounter f) (s : StatsSet) (n : Int) :
    f (done s n).1 = f s := by
  obtain ⟨h1, h2, h3, h4, h5⟩ := done_counters s n
  rcases hf with rfl | rfl | rfl | rfl | rfl <;> assumption

/-- What a propose event adds to a counter does not depend on the set. -/
theorem IsCounter_newBlockProposeEvent (f : StatsSet → Int) (hf : IsCounter f)
    (e : Event) (payload : consensusEventPayload) (history : List Event)
    (s t : StatsSet) :
    f (newBlockProposeEvent s e payload history).1 - f s
      = f (newBlockProposeEvent t e payload history).1 - f t := by
  unfold newBlockProposeEvent
  split_ifs
  · cases historyAt history e.ParentHistoryIndex <;>
      rcases hf with rfl | rfl | rfl | rfl | rfl <;> simp
  · rcases hf with rfl | rfl | rfl | rfl | rfl <;> simp

theorem IsCounter_checker (f : StatsSet → Int) (hf : IsCounter f)
    (block : Block) (app : App) (s t : StatsSet) :
    f (checker block app s) - f s = f (checker block app t) - f t := by
  unfold checker
  dsimp only
  split_ifs <;> rcases hf with rfl | rfl | rfl | rfl | rfl <;> simp

/-- What a receive event adds to a counter does not depend on the set. -/
theorem IsCounter_newBlockReceiveEvent (f : StatsSet → Int) (hf : IsCounter f)
    (e : Event) (payload : consensusEventPayload) (history : List Event)
    (app : Option App) (s t : StatsSet) :
    f (newBlockReceiveEvent s e payload history app).1 - f s
      = f (newBlockReceiveEvent t e payload history app).1 - f t := by
  unfold newBlockReceiveEvent
  cases historyAt history e.ParentHistoryIndex with
  | none => simp
  | some parent =>
    dsimp only
    cases payload.PiggyBack with
    | other => rcases hf with rfl | rfl | rfl | rfl | rfl <;> simp
    | block b =>
      cases app with
      | none => rcases hf with rfl | rfl | rfl | rfl | rfl <;> simp [Check]
      | some a =>
        simp only [Check]
        have hc := IsCounter_checker f hf b a
          { s with
            ReceivingLatency :=
              s.ReceivingLatency + (e.Time - parent.Time - parent.ExecInterval)
            ProcessExecLatency := s.ProcessExecLatency + e.ExecInterval
            ReceivedBlockCount := s.ReceivedBlockCount + 1 }
          { t with
            ReceivingLatency :=
              t.ReceivingLatency + (e.Time - parent.Time - parent.ExecInterval)
            ProcessExecLatency := t.ProcessExecLatency + e.ExecInterval
            ReceivedBlockCount := t.ReceivedBlockCount + 1 }
        rcases hf with rfl | rfl | rfl | rfl | rfl <;> simp only at hc ⊢ <;> omega

theorem sumOver_append (f : StatsSet → Int) (bv : List (ValidatorID × StatsSet))
    (v : ValidatorID) (t : StatsSet) :
    sumOver f (bv ++ [(v, t)]) = sumOver f bv + f t := by
  induction bv with
  | nil => simp [sumOver]
  | cons kv rest ih =>
    obtain ⟨k, u⟩ := kv
    show sumOver f ((k, u) :: (rest ++ [(v, t)])) = sumOver f ((k, u) :: rest) + f t
    unfold sumOver
    rw [ih]
    omega

theorem sumOver_storeSet (f : StatsSet → Int) (bv : List (ValidatorID × StatsSet))
    (v : ValidatorID) (s t : StatsSet) (h : lookupSet bv v = some s) :
    sumOver f (storeSet bv v t) = sumOver f bv - f s + f t := by
  induction bv with
  | nil => simp [lookupSet] at h
  | cons kv rest ih =>
    obtain ⟨k, u⟩ := kv
    by_cases hk : k = v
    · simp only [lookupSet, hk, if_true, Option.some.injEq] at h
      simp only [storeSet, hk, if_true, sumOver, h]
      omega
    · simp only [lookupSet, hk, if_false] at h
      simp only [storeSet, hk, if_false, sumOver, ih h]
      omega

theorem sumOver_done (f : StatsSet → Int) (hf : IsCounter f)
    (bv : List (ValidatorID × StatsSet)) :
    sumOver f (bv.map (fun kv => (kv.1, (done kv.2 1).1))) = sumOver f bv := by
  induction bv with
  | nil => rfl
  | cons kv rest ih =>
    obtain ⟨k, u⟩ := kv
    simp only [List.map_cons, sumOver, ih, IsCounter_done f hf]

/-- Fetching the set of `v` and writing `t` back through the pointer changes
the sum of a counter by the change of that set. -/
theorem sumOver_get_store (f : StatsSet → Int) (hf : IsCounter f) (stats : Stats)
    (v : ValidatorID) (t : StatsSet) :
    sumOver f (storeSet (getStatsSetByValidator stats v).1.ByValidator v t)
      = sumOver f stats.ByValidator - f (getStatsSetByValidator stats v).2 + f t := by
  unfold getStatsSetByValidator
  cases hl : lookupSet stats.ByValidator v with
  | some s => exact sumOver_storeSet f _ v s t hl
  | none =>
    dsimp only
    rw [storeSet_append_new _ _ _ _ hl, sumOver_append, IsCounter_empty f hf]
    omega

theorem getStatsSetByValidator_all (stats : Stats) (v : ValidatorID) :
    (getStatsSetByValidator stats v).1.All = stats.All :=
  (getStatsSetByValidator_spec stats v).2.2

theorem sumOver_calculateEvent (f : StatsSet → Int) (hf : IsCounter f) (stats st : Stats)
    (e : Event) (history : List Event) (apps : ValidatorID → Option App)
    (hc : calculateEvent stats e history apps = (st, LoopExit.finished))
    (h : f stats.All = sumOver f stats.ByValidator) :
    f st.All = sumOver f st.ByValidator := by
  unfold calculateEvent at hc
  cases hpl : e.Payload with
  | other => rw [hpl] at hc; simp at hc
  | consensus payload =>
    rw [hpl] at hc
    dsimp only at hc
    cases ht : payload.Typ with
    | unknown tag => rw [ht] at hc; simp at hc
    | evtProposeBlock =>
      rw [ht] at hc
      dsimp only at hc
      rcases ha : newBlockProposeEvent stats.All e payload history with ⟨all, _ | p⟩
      · rw [ha] at hc
        dsimp only at hc
        rcases hb : newBlockProposeEvent
          (getStatsSetByValidator { stats with All := all } e.ValidatorID).2
          e payload history with ⟨s1, _ | p⟩
        · rw [hb] at hc
          simp only [Prod.mk.injEq, and_true] at hc
          subst hc
          have hd := IsCounter_newBlockProposeEvent f hf e payload history stats.All
            (getStatsSetByValidator { stats with All := all } e.ValidatorID).2
          rw [ha, hb] at hd
          have hs := sumOver_get_store f hf { stats with All := all } e.ValidatorID s1
          simp only [getStatsSetByValidator_all] at hs ⊢
          rw [hs]
          simp only at hd ⊢
          omega
        · rw [hb] at hc; simp at hc
      · rw [ha] at hc; simp at hc
    | evtReceiveBlock =>
      rw [ht] at hc
      dsimp only at hc
      rcases ha : newBlockReceiveEvent stats.All e payload history (apps e.ValidatorID)
        with ⟨all, _ | p⟩
      · rw [ha] at hc
        dsimp only at hc
        rcases hb : newBlockReceiveEvent
          (getStatsSetByValidator { stats with All := all } e.ValidatorID).2
          e payload history (apps e.ValidatorID) with ⟨s1, _ | p⟩
        · rw [hb] at hc
          simp only [Prod.mk.injEq, and_true] at hc
          subst hc
          have hd := IsCounter_newBlockReceiveEvent f hf e payload history
            (apps e.ValidatorID) stats.All
            (getStatsSetByValidator { stats with All := all } e.ValidatorID).2
          rw [ha, hb] at hd
          have hs := sumOver_get_store f hf { stats with All := all } e.ValidatorID s1
          simp only [getStatsSetByValidator_all] at hs ⊢
          rw [hs]
          simp only at hd ⊢
          omega
        · rw [hb] at hc; simp at hc
      · rw [ha] at hc; simp at hc

theorem sumOver_calculateLoop (f : StatsSet → Int) (hf : IsCounter f) (rest : List Event)
    (stats st : Stats) (history : List Event) (apps : ValidatorID → Option App)
    (hc : calculateLoop stats rest history apps = (st, LoopExit.finished))
    (h : f stats.All = sumOver f stats.ByValidator) :
    f st.All = sumOver f st.ByValidator := by
  induction rest generalizing stats with
  | nil =>
    simp only [calculateLoop, Prod.mk.injEq, and_true] at hc
    subst hc
    exact h
  | cons e rest1 ih =>
    unfold calculateLoop at hc
    rcases he : calculateEvent stats e history apps with ⟨stats1, exit⟩
    rw [he] at hc
    cases exit with
    | finished => exact ih stats1 hc (sumOver_calculateEvent f hf stats stats1 e history apps he h)
    | returned err => simp at hc
    | panicked p => simp at hc

theorem NewStats_sumOver (f : StatsSet → Int) (hf : IsCounter f) (history : List Event)
    (apps : ValidatorID → Option App) (st : Stats) (err : Option Error)
    (h : NewStats history apps = Except.ok (some st, err)) :
    f st.All = sumOver f st.ByValidator := by
  obtain ⟨_, st0, st1, hc, hs, hst⟩ := NewStats_ok history apps (some st) err h
  obtain ⟨hd, hx⟩ := calculate_ok {} st0 history apps none hc
  have hfin : (calculateLoop {} history history apps).2 = LoopExit.finished := by
    rcases hx with ⟨h1, _⟩ | ⟨e, _, h2⟩
    · exact h1
    · cases h2
  have hloop := sumOver_calculateLoop f hf history {} (calculateLoop {} history history apps).1
    history apps (by rw [← hfin]) (by simp [IsCounter_empty f hf, sumOver])
  obtain ⟨h1, _, h3, _, _, _⟩ := calculateDeferred_ok _ _ hd
  obtain ⟨st2, he, ha, hb⟩ := summary_ok _ _ _ hs
  cases he
  cases hst
  rw [ha, hb, h1, h3, IsCounter_done f hf, sumOver_done f hf]
  exact hloop

/-- C9: whenever `NewStats` returns a `Stats` value, each of the five counters
of `All` equals the sum of that counter over the sets of `ByValidator`. -/
theorem NewStats_counters_sum (history : List Event) (apps : ValidatorID → Option App)
    (st : Stats) (err : Option Error)
    (h : NewStats history apps = Except.ok (some st, err)) :
    st.All.ProposedBlockCount = sumOver StatsSet.ProposedBlockCount st.ByValidator ∧
    st.All.ReceivedBlockCount = sumOver StatsSet.ReceivedBlockCount st.ByValidator ∧
    st.All.StronglyAckedBlockCount
      = sumOver StatsSet.StronglyAckedBlockCount st.ByValidator ∧
    st.All.TotalOrderedBlockCount
      = sumOver StatsSet.TotalOrderedBlockCount st.ByValidator ∧
    st.All.DeliveredBlockCount = sumOver StatsSet.DeliveredBlockCount st.ByValidator :=
  ⟨NewStats_sumOver _ (Or.inl rfl) history apps st err h,
   NewStats_sumOver _ (Or.inr (Or.inl rfl)) history apps st err h,
   NewStats_sumOver _ (Or.inr (Or.inr (Or.inl rfl))) history apps st err h,
   NewStats_sumOver _ (Or.inr (Or.inr (Or.inr (Or.inl rfl)))) history apps st err h,
   NewStats_sumOver _ (Or.inr (Or.inr (Or.inr (Or.inr rfl)))) history apps st err h⟩


/-- C9, at the two-validator history: `All` counts 4 proposed, 2 received
blocks, the two validators 2 and 1 each. -/
theorem NewStats_counters_sum_witness :
    NewStats twoValidatorHistory sampleApps = Except.ok (some twoValidatorStats, none) ∧
    twoValidatorStats.All.ProposedBlockCount
      = sumOver StatsSet.ProposedBlockCount twoValidatorStats.ByValidator ∧
    twoValidatorStats.All.ReceivedBlockCount
      = sumOver StatsSet.ReceivedBlockCount twoValidatorStats.ByValidator ∧
    twoValidatorStats.All.StronglyAckedBlockCount
      = sumOver StatsSet.StronglyAckedBlockCount twoValidatorStats.ByValidator ∧
    twoValidatorStats.All.TotalOrderedBlockCount
      = sumOver StatsSet.TotalOrderedBlockCount twoValidatorStats.ByValidator ∧
    twoValidatorStats.All.DeliveredBlockCount
      = sumOver StatsSet.DeliveredBlockCount twoValidatorStats.ByValidator :=
  ⟨rfl, NewStats_counters_sum twoValidatorHistory sampleApps twoValidatorStats none rfl⟩

/-! ## Failures of `NewStats` -/

theorem calculateEvent_finished_wellformed (stats st : Stats) (e : Event)
    (history : List Event) (apps : ValidatorID → Option App)
    (hc : calculateEvent stats e history apps = (st, LoopExit.finished)) :
    ¬ malformed e := by
  unfold calculateEvent at hc
  unfold malformed
  cases hpl : e.Payload with
  | other => rw [hpl] at hc; simp at hc
  | consensus payload =>
    rw [hpl] at hc
    dsimp only at hc ⊢
    cases ht : payload.Typ with
    | unknown tag => rw [ht] at hc; simp at hc
    | evtProposeBlock => simp
    | evtReceiveBlock => simp

theorem calculateLoop_finished_wellformed (rest : List Event) (stats st : Stats)
    (history : List Event) (apps : ValidatorID → Option App)
    (hc : calculateLoop stats rest history apps = (st, LoopExit.finished)) :
    ∀ e ∈ rest, ¬ malformed e := by
  induction rest generalizing stats with
  | nil => intro e he; cases he
  | cons e0 rest1 ih =>
    unfold calculateLoop at hc
    rcases he : calculateEvent stats e0 history apps with ⟨stats1, exit⟩
    rw [he] at hc
    cases exit with
    | finished =>
      intro e hmem
      rcases List.mem_cons.mp hmem with rfl | hm
      · exact calculateEvent_finished_wellformed stats stats1 e history apps he
      · exact ih stats1 hc e hm
    | returned err => simp at hc
    | panicked p => simp at hc

/-- An error of `calculate` never reaches the caller of `NewStats`: on a
history with a malformed event `NewStats` panics. -/
theorem NewStats_malformed_panics (history : List Event)
    (apps : ValidatorID → Option App) (e : Event) (he : e ∈ history)
    (hm : malformed e) : ∃ p, NewStats history apps = Except.error p := by
  cases hn : NewStats history apps with
  | error p => exact ⟨p, rfl⟩
  | ok r =>
    exfalso
    obtain ⟨st, err⟩ := r
    obtain ⟨_, st0, st1, hc, _, _⟩ := NewStats_ok history apps st err hn
    obtain ⟨_, hx⟩ := calculate_ok {} st0 history apps none hc
    rcases hx with ⟨h1, _⟩ | ⟨e1, _, h2⟩
    · exact calculateLoop_finished_wellformed history {}
        (calculateLoop {} history history apps).1 history apps (by rw [← h1]) e he hm
    · cases h2

/-- C6: on the sample history followed by an event whose payload is not a
consensus event payload, `calculate` returns `ErrUnknownEvent`, and `NewStats`
then panics with a nil dereference (it calls `summary` on the nil `stats`)
instead of returning `(nil, err)`. -/
theorem NewStats_malformedHistory :
    malformed unknownEvent ∧ unknownEvent ∈ malformedHistory ∧
    (∃ st, calculate {} malformedHistory sampleApps
      = Except.ok (st, some Error.ErrUnknownEvent)) ∧
    NewStats malformedHistory sampleApps = Except.error Panic.nilDereference :=
  ⟨trivial, by decide, ⟨_, rfl⟩, rfl⟩

/-- C7: `NewStats` panics with a division by zero on the empty history, on a
history without receive events, on a history in which a validator has no
propose event, and on a history in which a validator has exactly one proposal;
on a history that spans less than one second it returns, the divisor of `BPS`
being zero. -/
theorem NewStats_degenerate :
    NewStats [] sampleApps = Except.error Panic.divideByZero ∧
    NewStats [mkPropose 1 0 1 (-1), mkPropose 1 10 1 0] sampleApps
      = Except.error Panic.divideByZero ∧
    NewStats [mkPropose 1 0 1 (-1), mkPropose 1 10 1 0, mkReceive 1 20 2 1 7,
        mkReceive 2 3000000000 2 1 7] sampleApps
      = Except.error Panic.divideByZero ∧
    NewStats [mkPropose 1 0 1 (-1), mkReceive 1 3000000000 2 0 7] sampleApps
      = Except.error Panic.divideByZero ∧
    (∃ st, NewStats [mkPropose 1 0 1 (-1), mkPropose 1 10 1 0, mkReceive 1 20 2 1 7]
        sampleApps = Except.ok (some st, none) ∧ st.BPS.den = 0) :=
  ⟨rfl, rfl, rfl, rfl, ⟨_, rfl, rfl⟩⟩

/-- C8: on the one-validator scenario the accumulation pass leaves `All` with
one proposed, received, strongly acked, totally ordered and delivered block,
proposing latency sum 0 and receiving latency sum `(5 - 0) - 1 = 4`; then
`All.done(1)` divides by `1 - 1 = 0` and `NewStats` panics instead of returning
a `Stats`. -/
theorem NewStats_scenario :
    calculateLoop {} scenarioHistory scenarioHistory sampleApps
      = ({ ByValidator :=
             [(1, { ProposedBlockCount := 1, ReceivedBlockCount := 1,
                    StronglyAckedBlockCount := 1, TotalOrderedBlockCount := 1,
                    DeliveredBlockCount := 1, ProposingLatency := 0,
                    ReceivingLatency := 4, PrepareExecLatency := 1,
                    ProcessExecLatency := 2 })],
           All := { ProposedBlockCount := 1, ReceivedBlockCount := 1,
                    StronglyAckedBlockCount := 1, TotalOrderedBlockCount := 1,
                    DeliveredBlockCount := 1, ProposingLatency := 0,
                    ReceivingLatency := 4, PrepareExecLatency := 1,
                    ProcessExecLatency := 2 } }, LoopExit.finished) ∧
    (done (calculateLoop {} scenarioHistory scenarioHistory sampleApps).1.All 1).2
      = some Panic.divideByZero ∧
    NewStats scenarioHistory sampleApps = Except.error Panic.divideByZero :=
  ⟨rfl, rfl, rfl⟩


/-! ## The loop body as a function of the event -/

theorem newBlockProposeEvent_snd (s : StatsSet) (e : Event)
    (payload : consensusEventPayload) (history : List Event) :
    (newBlockProposeEvent s e payload history).2
      = if proposeOk e history then none else some Panic.indexOutOfRange := by
  unfold newBlockProposeEvent proposeOk
  by_cases h1 : e.ParentHistoryIndex = -1
  · simp [h1]
  · cases h2 : historyAt history e.ParentHistoryIndex <;> simp [h1]

theorem newBlockReceiveEvent_snd (s : StatsSet) (e : Event)
    (payload : consensusEventPayload) (history : List Event) (app : Option App) :
    ((newBlockReceiveEvent s e payload history app).2 = none
      ↔ receiveOk e payload history app = true) := by
  unfold newBlockReceiveEvent receiveOk
  cases h2 : historyAt history e.ParentHistoryIndex with
  | none => simp
  | some parent =>
    cases h3 : payload.PiggyBack with
    | other => simp
    | block b => cases app <;> simp [Check]

theorem getStatsSetByValidator_withAll (stats : Stats) (all : StatsSet) (v : ValidatorID) :
    (getStatsSetByValidator { stats with All := all } v).1.ByValidator
      = (getStatsSetByValidator stats v).1.ByValidator ∧
    (getStatsSetByValidator { stats with All := all } v).2
      = (getStatsSetByValidator stats v).2 ∧
    (getStatsSetByValidator { stats with All := all } v).1.All = all ∧
    (getStatsSetByValidator { stats with All := all } v).1.BPS = stats.BPS ∧
    (getStatsSetByValidator { stats with All := all } v).1.ExecutionTime
      = stats.ExecutionTime := by
  unfold getStatsSetByValidator
  cases lookupSet stats.ByValidator v <;> simp

/-- When the body goes through, `All` and the set of the event's validator
receive the same accumulation and nothing else changes. -/
theorem calculateEvent_of_eventOk (stats : Stats) (e : Event) (history : List Event)
    (apps : ValidatorID → Option App) (hok : eventOk e history apps = true) :
    calculateEvent stats e history apps =
      ({ ByValidator :=
           storeSet (getStatsSetByValidator stats e.ValidatorID).1.ByValidator e.ValidatorID
             (accumulate e history apps (getStatsSetByValidator stats e.ValidatorID).2)
         All := accumulate e history apps stats.All
         BPS := stats.BPS
         ExecutionTime := stats.ExecutionTime }, LoopExit.finished) := by
  unfold eventOk at hok
  unfold calculateEvent accumulate
  cases hpl : e.Payload with
  | other => rw [hpl] at hok; simp at hok
  | consensus payload =>
    rw [hpl] at hok
    dsimp only at hok ⊢
    cases ht : payload.Typ with
    | unknown tag => rw [ht] at hok; simp at hok
    | evtProposeBlock =>
      rw [ht] at hok
      dsimp only at hok ⊢
      have h1 : ∀ s, (newBlockProposeEvent s e payload history).2 = none := by
        intro s; rw [newBlockProposeEvent_snd, hok]; rfl
      obtain ⟨g1, g2, g3, g4, g5⟩ := getStatsSetByValidator_withAll stats
        (newBlockProposeEvent stats.All e payload history).1 e.ValidatorID
      rcases ha : newBlockProposeEvent stats.All e payload history with ⟨all, _ | p⟩
      · rw [ha] at g1 g2 g3 g4 g5
        dsimp only at g1 g2 g3 g4 g5 ⊢
        rcases hb : newBlockProposeEvent
          (getStatsSetByValidator { stats with All := all } e.ValidatorID).2
          e payload history with ⟨s1, _ | p⟩
        · dsimp only
          rw [g2] at hb
          rw [hb, g1, g3, g4, g5]
        · have := h1 (getStatsSetByValidator { stats with All := all } e.ValidatorID).2
          rw [hb] at this
          cases this
      · have := h1 stats.All
        rw [ha] at this
        cases this
    | evtReceiveBlock =>
      rw [ht] at hok
      dsimp only at hok ⊢
      have h1 : ∀ s, (newBlockReceiveEvent s e payload history (apps e.ValidatorID)).2
          = none := by
        intro s; exact (newBlockReceiveEvent_snd s e payload history _).2 hok
      obtain ⟨g1, g2, g3, g4, g5⟩ := getStatsSetByValidator_withAll stats
        (newBlockReceiveEvent stats.All e payload history (apps e.ValidatorID)).1
        e.ValidatorID
      rcases ha : newBlockReceiveEvent stats.All e payload history (apps e.ValidatorID)
        with ⟨all, _ | p⟩
      · rw [ha] at g1 g2 g3 g4 g5
        dsimp only at g1 g2 g3 g4 g5 ⊢
        rcases hb : newBlockReceiveEvent
          (getStatsSetByValidator { stats with All := all } e.ValidatorID).2
          e payload history (apps e.ValidatorID) with ⟨s1, _ | p⟩
        · dsimp only
          rw [g2] at hb
          rw [hb, g1, g3, g4, g5]
        · have := h1 (getStatsSetByValidator { stats with All := all } e.ValidatorID).2
          rw [hb] at this
          cases this
      · have := h1 stats.All
        rw [ha] at this
        cases this

/-- When the body does not go through, the loop ends there. -/
theorem calculateEvent_of_not_eventOk (stats : Stats) (e : Event) (history : List Event)
    (apps : ValidatorID → Option App) (hok : eventOk e history apps = false) :
    (calculateEvent stats e history apps).2 ≠ LoopExit.finished := by
  unfold eventOk at hok
  unfold calculateEvent
  cases hpl : e.Payload with
  | other => simp
  | consensus payload =>
    rw [hpl] at hok
    dsimp only at hok ⊢
    cases ht : payload.Typ with
    | unknown tag => simp
    | evtProposeBlock =>
      rw [ht] at hok
      dsimp only at hok ⊢
      have h1 := newBlockProposeEvent_snd stats.All e payload history
      rw [hok] at h1
      rcases ha : newBlockProposeEvent stats.All e payload history with ⟨all, _ | p⟩
      · rw [ha] at h1; simp at h1
      · simp
    | evtReceiveBlock =>
      rw [ht] at hok
      dsimp only at hok ⊢
      have h1 := newBlockReceiveEvent_snd stats.All e payload history (apps e.ValidatorID)
      rw [hok] at h1
      rcases ha : newBlockReceiveEvent stats.All e payload history (apps e.ValidatorID)
        with ⟨all, _ | p⟩
      · rw [ha] at h1; simp at h1
      · simp


/-! ## The per-validator map under one loop step -/

theorem lookupSet_storeSet_ne (bv : List (ValidatorID × StatsSet)) (v w : ValidatorID)
    (t : StatsSet) (h : w ≠ v) : lookupSet (storeSet bv v t) w = lookupSet bv w := by
  induction bv with
  | nil => rfl
  | cons kv rest ih =>
    obtain ⟨k, u⟩ := kv
    by_cases hk : k = v
    · subst hk
      have hkw : ¬ k = w := fun h1 => h h1.symm
      simp [storeSet, lookupSet, hkw]
    · by_cases hkw : k = w
      · subst hkw
        simp [storeSet, lookupSet, hk]
      · simp [storeSet, lookupSet, hk, hkw, ih]

theorem lookupSet_append_ne (bv : List (ValidatorID × StatsSet)) (v w : ValidatorID)
    (t : StatsSet) (h : w ≠ v) : lookupSet (bv ++ [(v, t)]) w = lookupSet bv w := by
  induction bv with
  | nil =>
    have hvw : ¬ v = w := fun h1 => h h1.symm
    simp [lookupSet, hvw]
  | cons kv rest ih =>
    obtain ⟨k, u⟩ := kv
    by_cases hkw : k = w
    · simp [lookupSet, hkw]
    · simp [lookupSet, hkw, ih]

theorem lookupSet_eq_none_iff (bv : List (ValidatorID × StatsSet)) (v : ValidatorID) :
    lookupSet bv v = none ↔ v ∉ bv.map Prod.fst := by
  induction bv with
  | nil => simp [lookupSet]
  | cons kv rest ih =>
    obtain ⟨k, u⟩ := kv
    by_cases hk : k = v
    · simp [lookupSet, hk]
    · have hvk : ¬ v = k := fun h1 => hk h1.symm
      simp [lookupSet, hk, hvk, ih]

theorem keys_storeSet (bv : List (ValidatorID × StatsSet)) (v : ValidatorID)
    (t : StatsSet) : (storeSet bv v t).map Prod.fst = bv.map Prod.fst := by
  induction bv with
  | nil => rfl
  | cons kv rest ih =>
    obtain ⟨k, u⟩ := kv
    by_cases hk : k = v
    · simp [storeSet, hk]
    · simp [storeSet, hk, ih]

/-- Reading the map after one loop step on an event of validator `v`. -/
theorem lookupSet_step (stats : Stats) (v w : ValidatorID) (t : StatsSet) :
    lookupSet (storeSet (getStatsSetByValidator stats v).1.ByValidator v t) w
      = if w = v then some t else lookupSet stats.ByValidator w := by
  by_cases hw : w = v
  · subst hw
    rw [if_pos rfl]
    exact lookupSet_storeSet_self _ _ _ _ (getStatsSetByValidator_spec stats w).2.1
  · rw [if_neg hw, lookupSet_storeSet_ne _ _ _ _ hw]
    unfold getStatsSetByValidator
    cases hl : lookupSet stats.ByValidator v with
    | some s => rfl
    | none => exact lookupSet_append_ne _ _ _ _ hw

/-- The keys of the map after one loop step on an event of validator `v`. -/
theorem keys_step (stats : Stats) (v : ValidatorID) (t : StatsSet) :
    (storeSet (getStatsSetByValidator stats v).1.ByValidator v t).map Prod.fst
      = if v ∈ stats.ByValidator.map Prod.fst then stats.ByValidator.map Prod.fst
        else stats.ByValidator.map Prod.fst ++ [v] := by
  rw [keys_storeSet]
  unfold getStatsSetByValidator
  cases hl : lookupSet stats.ByValidator v with
  | some s =>
    have : v ∈ stats.ByValidator.map Prod.fst := by
      by_contra hc
      rw [(lookupSet_eq_none_iff _ _).2 hc] at hl
      cases hl
    rw [if_pos this]
  | none =>
    rw [if_neg ((lookupSet_eq_none_iff _ _).1 hl)]
    simp

/-! ## The accumulation pass as a whole -/

theorem calculateLoop_finished_iff (rest : List Event) (stats : Stats)
    (history : List Event) (apps : ValidatorID → Option App) :
    (calculateLoop stats rest history apps).2 = LoopExit.finished
      ↔ ∀ e ∈ rest, eventOk e history apps = true := by
  induction rest generalizing stats with
  | nil => simp [calculateLoop]
  | cons e rest1 ih =>
    unfold calculateLoop
    cases hok : eventOk e history apps with
    | true =>
      rw [calculateEvent_of_eventOk stats e history apps hok]
      dsimp only
      rw [ih]
      simp [hok]
    | false =>
      have hne := calculateEvent_of_not_eventOk stats e history apps hok
      rcases hc : calculateEvent stats e history apps with ⟨stats1, exit⟩
      rw [hc] at hne
      cases exit with
      | finished => exact absurd rfl hne
      | returned err => simp [hok]
      | panicked p => simp [hok]

/-- The state after a pass in which every body goes through: `All` has
accumulated every event, the set of `w` the events of `w`, started from what
was there. -/
theorem calculateLoop_of_eventOk (rest : List Event) (stats : Stats)
    (history : List Event) (apps : ValidatorID → Option App)
    (hok : ∀ e ∈ rest, eventOk e history apps = true) :
    (calculateLoop stats rest history apps).1.All
      = accumulateAll rest history apps stats.All ∧
    (∀ w, lookupSet (calculateLoop stats rest history apps).1.ByValidator w
      = if eventsOf w rest = [] then lookupSet stats.ByValidator w
        else some (accumulateAll (eventsOf w rest) history apps
          ((lookupSet stats.ByValidator w).getD {}))) ∧
    (calculateLoop stats rest history apps).1.BPS = stats.BPS ∧
    (calculateLoop stats rest history apps).1.ExecutionTime = stats.ExecutionTime := by
  induction rest generalizing stats with
  | nil => simp [calculateLoop, accumulateAll, eventsOf]
  | cons e rest1 ih =>
    have he := hok e (List.mem_cons_self _ _)
    have hr : ∀ x ∈ rest1, eventOk x history apps = true :=
      fun x hx => hok x (List.mem_cons_of_mem _ hx)
    unfold calculateLoop
    rw [calculateEvent_of_eventOk stats e history apps he]
    dsimp only
    obtain ⟨i1, i2, i3, i4⟩ := ih _ hr
    refine ⟨?_, ?_, ?_, ?_⟩
    · rw [i1]; rfl
    · intro w
      rw [i2 w]
      dsimp only
      rw [lookupSet_step, (getStatsSetByValidator_spec stats e.ValidatorID).1]
      by_cases hw : w = e.ValidatorID
      · subst hw
        have hf : eventsOf e.ValidatorID (e :: rest1) = e :: eventsOf e.ValidatorID rest1 := by
          simp [eventsOf]
        rw [hf, if_pos rfl]
        simp only [reduceCtorEq, if_false, Option.getD_some, accumulateAll]
        split_ifs with h0
        · rw [h0]; rfl
        · rfl
      · have hf : eventsOf w (e :: rest1) = eventsOf w rest1 := by
          have : ¬ e.ValidatorID = w := fun h1 => hw h1.symm
          simp [eventsOf, this]
        rw [hf, if_neg hw]
    · rw [i3]
    · rw [i4]

theorem keys_calculateLoop (rest : List Event) (stats : Stats)
    (history : List Event) (apps : ValidatorID → Option App)
    (hok : ∀ e ∈ rest, eventOk e history apps = true)
    (hnd : (stats.ByValidator.map Prod.fst).Nodup) :
    ((calculateLoop stats rest history apps).1.ByValidator.map Prod.fst).Nodup ∧
    ∀ w, w ∈ (calculateLoop stats rest history apps).1.ByValidator.map Prod.fst
      ↔ w ∈ stats.ByValidator.map Prod.fst ∨ ∃ e ∈ rest, e.ValidatorID = w := by
  induction rest generalizing stats with
  | nil => simp [calculateLoop, hnd]
  | cons e rest1 ih =>
    have he := hok e (List.mem_cons_self _ _)
    have hr : ∀ x ∈ rest1, eventOk x history apps = true :=
      fun x hx => hok x (List.mem_cons_of_mem _ hx)
    unfold calculateLoop
    rw [calculateEvent_of_eventOk stats e history apps he]
    dsimp only
    have hk := keys_step stats e.ValidatorID
      (accumulate e history apps (getStatsSetByValidator stats e.ValidatorID).2)
    have hnd1 : ((storeSet (getStatsSetByValidator stats e.ValidatorID).1.ByValidator
        e.ValidatorID (accumulate e history apps
          (getStatsSetByValidator stats e.ValidatorID).2)).map Prod.fst).Nodup := by
      rw [hk]
      split_ifs with hm
      · exact hnd
      · exact List.Nodup.append hnd (List.nodup_singleton _) (by simpa using hm)
    obtain ⟨j1, j2⟩ := ih
      { ByValidator := storeSet (getStatsSetByValidator stats e.ValidatorID).1.ByValidator
          e.ValidatorID (accumulate e history apps
            (getStatsSetByValidator stats e.ValidatorID).2)
        All := accumulate e history apps stats.All
        BPS := stats.BPS
        ExecutionTime := stats.ExecutionTime } hr hnd1
    refine ⟨j1, ?_⟩
    intro w
    rw [j2 w]
    dsimp only
    rw [hk]
    split_ifs with hm
    · constructor
      · rintro (h1 | ⟨x, hx, hxw⟩)
        · exact Or.inl h1
        · exact Or.inr ⟨x, List.mem_cons_of_mem _ hx, hxw⟩
      · rintro (h1 | ⟨x, hx, hxw⟩)
        · exact Or.inl h1
        · rcases List.mem_cons.mp hx with rfl | hx1
          · exact Or.inl (hxw ▸ hm)
          · exact Or.inr ⟨x, hx1, hxw⟩
    · constructor
      · rintro (h1 | ⟨x, hx, hxw⟩)
        · rcases List.mem_append.mp h1 with h2 | h2
          · exact Or.inl h2
          · exact Or.inr ⟨e, List.mem_cons_self _ _, (List.mem_singleton.mp h2).symm⟩
        · exact Or.inr ⟨x, List.mem_cons_of_mem _ hx, hxw⟩
      · rintro (h1 | ⟨x, hx, hxw⟩)
        · exact Or.inl (List.mem_append_left _ h1)
        · rcases List.mem_cons.mp hx with rfl | hx1
          · exact Or.inl (List.mem_append_right _ (List.mem_singleton.mpr hxw.symm))
          · exact Or.inr ⟨x, hx1, hxw⟩


/-! ## Per-validator sets are independent -/

theorem lookupSet_map_snd (g : StatsSet → StatsSet) (bv : List (ValidatorID × StatsSet))
    (w : ValidatorID) :
    lookupSet (bv.map (fun kv => (kv.1, g kv.2))) w = (lookupSet bv w).map g := by
  induction bv with
  | nil => rfl
  | cons kv rest ih =>
    obtain ⟨k, u⟩ := kv
    by_cases hk : k = w
    · simp [lookupSet, hk]
    · simp [lookupSet, hk, ih]

/-- One loop step on an event of another validator leaves the set of `w` as
it was, however the step ends. -/
theorem calculateEvent_frame (stats : Stats) (e : Event) (history : List Event)
    (apps : ValidatorID → Option App) (w : ValidatorID) (hne : w ≠ e.ValidatorID) :
    lookupSet (calculateEvent stats e history apps).1.ByValidator w
      = lookupSet stats.ByValidator w := by
  have key : ∀ (all t : StatsSet),
      lookupSet (storeSet (getStatsSetByValidator { stats with All := all }
        e.ValidatorID).1.ByValidator e.ValidatorID t) w = lookupSet stats.ByValidator w := by
    intro all t
    rw [lookupSet_step, if_neg hne]
  unfold calculateEvent
  cases e.Payload with
  | other => rfl
  | consensus payload =>
    dsimp only
    cases payload.Typ with
    | unknown tag => rfl
    | evtProposeBlock =>
      dsimp only
      rcases newBlockProposeEvent stats.All e payload history with ⟨all, _ | p⟩
      · dsimp only
        rcases newBlockProposeEvent
          (getStatsSetByValidator { stats with All := all } e.ValidatorID).2
          e payload history with ⟨s1, _ | p⟩
        · exact key all s1
        · exact key all s1
      · rfl
    | evtReceiveBlock =>
      dsimp only
      rcases newBlockReceiveEvent stats.All e payload history (apps e.ValidatorID)
        with ⟨all, _ | p⟩
      · dsimp only
        rcases newBlockReceiveEvent
          (getStatsSetByValidator { stats with All := all } e.ValidatorID).2
          e payload history (apps e.ValidatorID) with ⟨s1, _ | p⟩
        · exact key all s1
        · exact key all s1
      · rfl

/-- The accumulation of an event reads the history only at the parent index
and the oracles only at the event's validator. -/
theorem accumulate_congr (e : Event) (history1 history2 : List Event)
    (apps1 apps2 : ValidatorID → Option App) (s : StatsSet)
    (hpar : historyAt history1 e.ParentHistoryIndex
      = historyAt history2 e.ParentHistoryIndex)
    (happ : apps1 e.ValidatorID = apps2 e.ValidatorID) :
    accumulate e history1 apps1 s = accumulate e history2 apps2 s := by
  unfold accumulate
  cases e.Payload with
  | other => rfl
  | consensus payload =>
    dsimp only
    cases payload.Typ with
    | unknown tag => rfl
    | evtProposeBlock =>
      dsimp only
      unfold newBlockProposeEvent
      rw [hpar]
    | evtReceiveBlock =>
      dsimp only
      unfold newBlockReceiveEvent
      rw [hpar, happ]

theorem accumulateAll_congr (events : List Event) (history1 history2 : List Event)
    (apps1 apps2 : ValidatorID → Option App) (w : ValidatorID) (s : StatsSet)
    (hw : ∀ x ∈ events, x.ValidatorID = w)
    (hpar : ∀ x ∈ events, historyAt history1 x.ParentHistoryIndex
      = historyAt history2 x.ParentHistoryIndex)
    (happ : apps1 w = apps2 w) :
    accumulateAll events history1 apps1 s = accumulateAll events history2 apps2 s := by
  induction events generalizing s with
  | nil => rfl
  | cons e rest ih =>
    unfold accumulateAll
    have hv := hw e (List.mem_cons_self _ _)
    rw [accumulate_congr e history1 history2 apps1 apps2 s
      (hpar e (List.mem_cons_self _ _)) (by rw [hv]; exact happ)]
    exact ih _ (fun x hx => hw x (List.mem_cons_of_mem _ hx))
      (fun x hx => hpar x (List.mem_cons_of_mem _ hx))

/-- What a successful `NewStats` returns, in terms of the accumulation pass:
every loop body went through, every `done` returned, and the sets are the
finalized accumulated ones. -/
theorem NewStats_ok_acc (history : List Event) (apps : ValidatorID → Option App)
    (st : Stats) (err : Option Error)
    (h : NewStats history apps = Except.ok (some st, err)) :
    err = none ∧
    (∀ e ∈ history, eventOk e history apps = true) ∧
    st.All = (done (calculateLoop {} history history apps).1.All
      ((calculateLoop {} history history apps).1.ByValidator.length : Int)).1 ∧
    (done (calculateLoop {} history history apps).1.All
      ((calculateLoop {} history history apps).1.ByValidator.length : Int)).2 = none ∧
    st.ByValidator = (calculateLoop {} history history apps).1.ByValidator.map
      (fun kv => (kv.1, (done kv.2 1).1)) ∧
    (∀ kv ∈ (calculateLoop {} history history apps).1.ByValidator,
      (done kv.2 1).2 = none) := by
  obtain ⟨herr, st0, st1, hc, hs, hst⟩ := NewStats_ok history apps (some st) err h
  obtain ⟨hd, hx⟩ := calculate_ok {} st0 history apps none hc
  have hfin : (calculateLoop {} history history apps).2 = LoopExit.finished := by
    rcases hx with ⟨h1, _⟩ | ⟨e, _, h2⟩
    · exact h1
    · cases h2
  obtain ⟨h1, h2, h3, h4, _, _⟩ := calculateDeferred_ok _ _ hd
  obtain ⟨st2, he, ha, hb⟩ := summary_ok _ _ _ hs
  cases he
  cases hst
  exact ⟨herr, (calculateLoop_finished_iff _ _ _ _).1 hfin, by rw [ha, h1], h2,
    by rw [hb, h3], h4⟩

/-- The set of validator `w` in what `NewStats` returns: absent when `w` has no
event, else the finalized accumulation of the events of `w` alone. -/
theorem NewStats_lookupSet (history : List Event) (apps : ValidatorID → Option App)
    (st : Stats) (err : Option Error)
    (h : NewStats history apps = Except.ok (some st, err)) (w : ValidatorID) :
    lookupSet st.ByValidator w
      = if eventsOf w history = [] then none
        else some (done (accumulateAll (eventsOf w history) history apps {}) 1).1 := by
  obtain ⟨_, hok, _, _, hbv, _⟩ := NewStats_ok_acc history apps st err h
  obtain ⟨_, hl, _, _⟩ := calculateLoop_of_eventOk history {} history apps hok
  rw [hbv, lookupSet_map_snd (fun s => (done s 1).1), hl w]
  split_ifs <;> rfl

/-- C11: a loop step on an event of validator `v` leaves the set of every
other validator `w` as it was, whatever the outcome of the step; and the set
of a validator `u` that `NewStats` returns is determined by the events of `u`,
the parent events they reference and the oracle of `u`: two successful runs
that agree on these return the same set for `u`. -/
theorem validator_sets_independent (stats : Stats) (e : Event) (history : List Event)
    (apps : ValidatorID → Option App) (w : ValidatorID) (hne : w ≠ e.ValidatorID)
    (u : ValidatorID) (history1 history2 : List Event)
    (apps1 apps2 : ValidatorID → Option App)
    (st1 st2 : Stats) (err1 err2 : Option Error)
    (h1 : NewStats history1 apps1 = Except.ok (some st1, err1))
    (h2 : NewStats history2 apps2 = Except.ok (some st2, err2))
    (hev : eventsOf u history1 = eventsOf u history2)
    (hpar : ∀ x ∈ eventsOf u history1,
      historyAt history1 x.ParentHistoryIndex = historyAt history2 x.ParentHistoryIndex)
    (happ : apps1 u = apps2 u) :
    lookupSet (calculateEvent stats e history apps).1.ByValidator w
      = lookupSet stats.ByValidator w ∧
    lookupSet st1.ByValidator u = lookupSet st2.ByValidator u := by
  refine ⟨calculateEvent_frame stats e history apps w hne, ?_⟩
  rw [NewStats_lookupSet history1 apps1 st1 err1 h1 u,
    NewStats_lookupSet history2 apps2 st2 err2 h2 u, ← hev]
  have hw : ∀ x ∈ eventsOf u history1, x.ValidatorID = u := by
    intro x hx
    simpa [eventsOf] using (List.mem_filter.mp hx).2
  rw [accumulateAll_congr (eventsOf u history1) history1 history2 apps1 apps2 u {}
    hw hpar happ]

/-- C11, at a step of validator 1 on a map that holds validator 2, and at the
sample history against its extension by the events of validator 2. -/
theorem validator_sets_independent_witness :
    (2 : ValidatorID) ≠ (mkPropose 1 0 1 (-1)).ValidatorID ∧
    NewStats sampleHistory sampleApps = Except.ok (some sampleStats, none) ∧
    NewStats extendedHistory sampleApps = Except.ok (some extendedStats, none) ∧
    lookupSet (calculateEvent twoValidatorStats (mkPropose 1 0 1 (-1))
        twoValidatorHistory sampleApps).1.ByValidator 2
      = lookupSet twoValidatorStats.ByValidator 2 ∧
    lookupSet sampleStats.ByValidator 1 = lookupSet extendedStats.ByValidator 1 :=
  ⟨by decide, rfl, rfl,
    validator_sets_independent twoValidatorStats (mkPropose 1 0 1 (-1))
      twoValidatorHistory sampleApps 2 (by decide)
      1 sampleHistory extendedHistory sampleApps sampleApps sampleStats extendedStats
      none none rfl rfl rfl (by decide) rfl⟩


/-! ## The summary -/

theorem historyAt_zero (history : List Event) : historyAt history 0 = history.head? := by
  unfold historyAt
  cases history <;> simp

theorem historyAt_last (history : List Event) :
    historyAt history ((history.length : Int) - 1) = history.getLast? := by
  unfold historyAt
  cases history with
  | nil => simp
  | cons e rest =>
    have h0 : ¬ (((e :: rest).length : Int) - 1 < 0) := by
      simp only [List.length_cons]; omega
    have h1 : (((e :: rest).length : Int) - 1).toNat = (e :: rest).length - 1 := by
      simp only [List.length_cons]; omega
    rw [if_neg h0, h1, List.getLast?_eq_getElem?]

theorem totalConfirmedBlocks_eq_sum (bv : List (ValidatorID × StatsSet)) :
    totalConfirmedBlocks bv = (bv.map (fun kv => kv.2.DeliveredBlockCount)).sum := by
  induction bv with
  | nil => rfl
  | cons kv rest ih =>
    obtain ⟨k, s⟩ := kv
    simp [totalConfirmedBlocks, ih]

/-- On a non-empty map and a non-empty history `summary` returns, and this is
what it stores. -/
theorem summary_of_nonempty (st : Stats) (history : List Event)
    (hbv : st.ByValidator ≠ []) (hh : history ≠ []) :
    ∃ first last, history.head? = some first ∧ history.getLast? = some last ∧
      summary (some st) history = Except.ok
        { ByValidator := st.ByValidator
          All := st.All
          BPS :=
            { num := Int.tdiv (totalConfirmedBlocks st.ByValidator)
                (st.ByValidator.length : Int)
              den := Int.tdiv (last.Time - first.Time) (1000 * 1000 * 1000) }
          ExecutionTime := last.Time - first.Time } := by
  obtain ⟨first, hf⟩ : ∃ first, history.head? = some first := by
    cases history with
    | nil => exact absurd rfl hh
    | cons e rest => exact ⟨e, rfl⟩
  obtain ⟨last, hl⟩ : ∃ last, history.getLast? = some last := by
    cases hg : history.getLast? with
    | none => exact absurd (List.getLast?_eq_none_iff.mp hg) hh
    | some last => exact ⟨last, rfl⟩
  refine ⟨first, last, hf, hl, ?_⟩
  have hlen : ¬ ((st.ByValidator.length : Int) = 0) := by
    intro h0
    have : st.ByValidator.length = 0 := by omega
    exact hbv (List.length_eq_zero.mp this)
  unfold summary
  simp only [hlen, if_false, historyAt_last, historyAt_zero, hf, hl]

/-- C12: when `NewStats` succeeds the history is non-empty and `ExecutionTime`
is the `Time` of the last history entry minus the `Time` of the first, taken
by position; and on a single-event history `summary` (run on any non-empty
map) returns with `ExecutionTime` zero. -/
theorem NewStats_executionTime (history : List Event) (apps : ValidatorID → Option App)
    (st : Stats) (err : Option Error)
    (h : NewStats history apps = Except.ok (some st, err))
    (st0 : Stats) (e : Event) (hbv : st0.ByValidator ≠ []) :
    (∃ first last, history.head? = some first ∧ history.getLast? = some last ∧
      st.ExecutionTime = last.Time - first.Time) ∧
    ∃ st1, summary (some st0) [e] = Except.ok st1 ∧ st1.ExecutionTime = 0 := by
  constructor
  · obtain ⟨_, s0, s1, _, hs, hst⟩ := NewStats_ok history apps (some st) err h
    cases hst
    have hs0 := hs
    unfold summary at hs0
    dsimp only at hs0
    split_ifs at hs0 with hz
    rw [historyAt_last, historyAt_zero] at hs0
    cases hl : history.getLast? with
    | none => rw [hl] at hs0; simp at hs0
    | some last =>
      cases hf : history.head? with
      | none => rw [hl, hf] at hs0; simp at hs0
      | some first =>
        rw [hl, hf] at hs0
        simp only [Except.ok.injEq] at hs0
        exact ⟨first, last, rfl, rfl, by rw [← hs0]⟩
  · obtain ⟨first, last, hf, hl, hs⟩ := summary_of_nonempty st0 [e] hbv (by simp)
    simp only [List.head?_cons, Option.some.injEq, List.getLast?_singleton] at hf hl
    subst hf hl
    exact ⟨_, hs, by simp⟩

/-- C12, at the sample history, whose last and first entries are two seconds
and 20 nanoseconds apart. -/
theorem NewStats_executionTime_witness :
    NewStats sampleHistory sampleApps = Except.ok (some sampleStats, none) ∧
    sampleStats.ByValidator ≠ [] ∧
    (∃ first last, sampleHistory.head? = some first ∧
      sampleHistory.getLast? = some last ∧
      sampleStats.ExecutionTime = last.Time - first.Time) ∧
    ∃ st1, summary (some sampleStats) [mkPropose 1 0 1 (-1)] = Except.ok st1 ∧
      st1.ExecutionTime = 0 :=
  ⟨rfl, by decide,
    NewStats_executionTime sampleHistory sampleApps sampleStats none rfl
      sampleStats (mkPropose 1 0 1 (-1)) (by decide)⟩

/-- C13: on a non-empty map and a non-empty history `summary` returns, and the
operands of the division that yields `BPS` are: the sum of
`DeliveredBlockCount` over the per-validator sets divided by the number of
entries (truncated), and `ExecutionTime` in nanoseconds divided by `10^9`
(truncated); the result is the same for every order of the entries of
`ByValidator`. -/
theorem summary_bps (st : Stats) (history : List Event)
    (bv : List (ValidatorID × StatsSet))
    (hbv : st.ByValidator ≠ []) (hh : history ≠ []) (hperm : bv.Perm st.ByValidator) :
    ∃ st1 st2, summary (some st) history = Except.ok st1 ∧
      summary (some { st with ByValidator := bv }) history = Except.ok st2 ∧
      st1.BPS.num =
        Int.tdiv ((st.ByValidator.map (fun kv => kv.2.DeliveredBlockCount)).sum)
          (st.ByValidator.length : Int) ∧
      st1.BPS.den = Int.tdiv st1.ExecutionTime 1000000000 ∧
      st2.BPS = st1.BPS ∧ st2.ExecutionTime = st1.ExecutionTime := by
  obtain ⟨first, last, hf, hl, hs⟩ := summary_of_nonempty st history hbv hh
  have hbv2 : ({ st with ByValidator := bv } : Stats).ByValidator ≠ [] := by
    intro h0
    have h1 : bv = [] := h0
    rw [h1] at hperm
    exact hbv (List.Perm.nil_eq hperm).symm
  obtain ⟨first2, last2, hf2, hl2, hs2⟩ :=
    summary_of_nonempty { st with ByValidator := bv } history hbv2 hh
  rw [hf] at hf2
  rw [hl] at hl2
  cases hf2
  cases hl2
  refine ⟨_, _, hs, hs2, ?_, ?_, ?_, rfl⟩
  · simp only [totalConfirmedBlocks_eq_sum]
  · rfl
  · simp only [totalConfirmedBlocks_eq_sum]
    rw [(hperm.map (fun kv => kv.2.DeliveredBlockCount)).sum_eq, hperm.length_eq]

/-- C13, at the result of the two-validator history with its two entries
swapped. -/
theorem summary_bps_witness :
    twoValidatorStats.ByValidator ≠ [] ∧ twoValidatorHistory ≠ [] ∧
    twoValidatorStats.ByValidator.reverse.Perm twoValidatorStats.ByValidator ∧
    ∃ st1 st2, summary (some twoValidatorStats) twoValidatorHistory = Except.ok st1 ∧
      summary (some { twoValidatorStats with
          ByValidator := twoValidatorStats.ByValidator.reverse })
        twoValidatorHistory = Except.ok st2 ∧
      st1.BPS.num =
        Int.tdiv
          ((twoValidatorStats.ByValidator.map (fun kv => kv.2.DeliveredBlockCount)).sum)
          (twoValidatorStats.ByValidator.length : Int) ∧
      st1.BPS.den = Int.tdiv st1.ExecutionTime 1000000000 ∧
      st2.BPS = st1.BPS ∧ st2.ExecutionTime = st1.ExecutionTime :=
  ⟨by decide, by decide, List.reverse_perm _,
    summary_bps twoValidatorStats twoValidatorHistory
      twoValidatorStats.ByValidator.reverse (by decide) (by decide)
      (List.reverse_perm _)⟩


/-! ## Counting events -/

/-- What an event whose loop body goes through adds to the proposed count,
the received count and the proposing latency of a set. -/
theorem accumulate_counts (e : Event) (history : List Event)
    (apps : ValidatorID → Option App) (s : StatsSet)
    (hok : eventOk e history apps = true) :
    (accumulate e history apps s).ProposedBlockCount
      = s.ProposedBlockCount + (if isPropose e then 1 else 0) ∧
    (accumulate e history apps s).ReceivedBlockCount
      = s.ReceivedBlockCount + (if isReceive e then 1 else 0) ∧
    (accumulate e history apps s).ProposingLatency
      = s.ProposingLatency + (if isParentedPropose e then parentGap history e else 0) := by
  unfold eventOk at hok
  unfold accumulate isParentedPropose isPropose isReceive
  cases hpl : e.Payload with
  | other => rw [hpl] at hok; simp at hok
  | consensus payload =>
    rw [hpl] at hok
    dsimp only at hok ⊢
    cases ht : payload.Typ with
    | unknown tag => rw [ht] at hok; simp at hok
    | evtProposeBlock =>
      rw [ht] at hok
      dsimp only at hok ⊢
      unfold proposeOk at hok
      unfold newBlockProposeEvent parentGap
      by_cases h1 : e.ParentHistoryIndex = -1
      · simp [h1]
      · cases h2 : historyAt history e.ParentHistoryIndex with
        | none => simp [h1, h2] at hok
        | some parent => simp [h1]
    | evtReceiveBlock =>
      rw [ht] at hok
      dsimp only at hok ⊢
      unfold receiveOk at hok
      cases h2 : historyAt history e.ParentHistoryIndex with
      | none => simp [h2] at hok
      | some parent =>
        cases h3 : payload.PiggyBack with
        | other => simp [h2, h3] at hok
        | block b =>
          cases h4 : apps e.ValidatorID with
          | none => simp [h2, h3, h4] at hok
          | some a =>
            unfold newBlockReceiveEvent
            rw [h2]
            dsimp only
            rw [h3]
            dsimp only [Check]
            obtain ⟨c1, c2, c3, _, _, _⟩ := checker_frame b a
              { s with
                ReceivingLatency :=
                  s.ReceivingLatency + (e.Time - parent.Time - parent.ExecInterval)
                ProcessExecLatency := s.ProcessExecLatency + e.ExecInterval
                ReceivedBlockCount := s.ReceivedBlockCount + 1 }
            rw [c1, c2, c3]
            simp

theorem accumulateAll_counts (events : List Event) (history : List Event)
    (apps : ValidatorID → Option App) (s : StatsSet)
    (hok : ∀ e ∈ events, eventOk e history apps = true) :
    (accumulateAll events history apps s).ProposedBlockCount
      = s.ProposedBlockCount + (events.countP isPropose : Int) ∧
    (accumulateAll events history apps s).ReceivedBlockCount
      = s.ReceivedBlockCount + (events.countP isReceive : Int) ∧
    (accumulateAll events history apps s).ProposingLatency
      = s.ProposingLatency
        + ((events.filter isParentedPropose).map (parentGap history)).sum := by
  induction events generalizing s with
  | nil => simp [accumulateAll]
  | cons e rest ih =>
    obtain ⟨a1, a2, a3⟩ := accumulate_counts e history apps s
      (hok e (List.mem_cons_self _ _))
    obtain ⟨i1, i2, i3⟩ := ih (accumulate e history apps s)
      (fun x hx => hok x (List.mem_cons_of_mem _ hx))
    unfold accumulateAll
    rw [i1, i2, i3, a1, a2, a3, List.countP_cons, List.countP_cons]
    refine ⟨?_, ?_, ?_⟩
    · split_ifs <;> push_cast <;> ring
    · split_ifs <;> push_cast <;> ring
    · by_cases hp : isParentedPropose e = true
      · simp [List.filter_cons, hp]; ring
      · simp [List.filter_cons, hp]

/-- An event the loop accepts is a proposal or a receipt, not both. -/
theorem eventOk_kind (e : Event) (history : List Event) (apps : ValidatorID → Option App)
    (hok : eventOk e history apps = true) :
    (isPropose e = true ∧ isReceive e = false) ∨
    (isPropose e = false ∧ isReceive e = true) := by
  unfold eventOk at hok
  unfold isPropose isReceive
  cases hpl : e.Payload with
  | other => rw [hpl] at hok; simp at hok
  | consensus payload =>
    rw [hpl] at hok
    dsimp only at hok ⊢
    cases ht : payload.Typ with
    | unknown tag => rw [ht] at hok; simp at hok
    | evtProposeBlock => simp
    | evtReceiveBlock => simp

theorem countP_kinds (events : List Event) (history : List Event)
    (apps : ValidatorID → Option App)
    (hok : ∀ e ∈ events, eventOk e history apps = true) :
    events.countP isPropose + events.countP isReceive = events.length := by
  induction events with
  | nil => rfl
  | cons e rest ih =>
    have h := ih (fun x hx => hok x (List.mem_cons_of_mem _ hx))
    rw [List.countP_cons, List.countP_cons, List.length_cons]
    rcases eventOk_kind e history apps (hok e (List.mem_cons_self _ _)) with
      ⟨h1, h2⟩ | ⟨h1, h2⟩ <;> simp [h1, h2] <;> omega

theorem eventsOf_subset (w : ValidatorID) (events : List Event) :
    ∀ e ∈ eventsOf w events, e ∈ events :=
  fun _ he => (List.mem_filter.mp he).1

/-- C15: when `NewStats` succeeds, `All.ProposedBlockCount` is the number of
propose events of the history, `All.ReceivedBlockCount` the number of receive
events, their sum the length of the history, and the set of every validator
`v` counts the propose and the receive events whose `ValidatorID` is `v`. -/
theorem NewStats_event_counts (history : List Event) (apps : ValidatorID → Option App)
    (st : Stats) (err : Option Error)
    (h : NewStats history apps = Except.ok (some st, err)) :
    st.All.ProposedBlockCount = (history.countP isPropose : Int) ∧
    st.All.ReceivedBlockCount = (history.countP isReceive : Int) ∧
    st.All.ProposedBlockCount + st.All.ReceivedBlockCount = (history.length : Int) ∧
    ∀ v s, lookupSet st.ByValidator v = some s →
      s.ProposedBlockCount = ((eventsOf v history).countP isPropose : Int) ∧
      s.ReceivedBlockCount = ((eventsOf v history).countP isReceive : Int) := by
  obtain ⟨_, hok, hall, _, _, _⟩ := NewStats_ok_acc history apps st err h
  obtain ⟨hl, _, _, _⟩ := calculateLoop_of_eventOk history {} history apps hok
  obtain ⟨c1, c2, _⟩ := accumulateAll_counts history history apps {} hok
  obtain ⟨d1, d2, _, _, _⟩ := done_counters (calculateLoop {} history history apps).1.All
    ((calculateLoop {} history history apps).1.ByValidator.length : Int)
  have hk := countP_kinds history history apps hok
  have e1 : st.All.ProposedBlockCount = (history.countP isPropose : Int) := by
    rw [hall, d1, hl, c1]; simp
  have e2 : st.All.ReceivedBlockCount = (history.countP isReceive : Int) := by
    rw [hall, d2, hl, c2]; simp
  refine ⟨e1, e2, ?_, ?_⟩
  · rw [e1, e2, ← hk]; push_cast; ring
  · intro v s hv
    rw [NewStats_lookupSet history apps st err h v] at hv
    split_ifs at hv with he
    simp only [Option.some.injEq] at hv
    obtain ⟨f1, f2, _⟩ := accumulateAll_counts (eventsOf v history) history apps {}
      (fun x hx => hok x (eventsOf_subset v history x hx))
    obtain ⟨g1, g2, _, _, _⟩ :=
      done_counters (accumulateAll (eventsOf v history) history apps {}) 1
    rw [← hv, g1, g2, f1, f2]
    simp

/-- C15, at the two-validator history: four proposals and two receipts in
all, two and one for validator 2. -/
theorem NewStats_event_counts_witness :
    NewStats twoValidatorHistory sampleApps = Except.ok (some twoValidatorStats, none) ∧
    twoValidatorStats.All.ProposedBlockCount
      = (twoValidatorHistory.countP isPropose : Int) ∧
    twoValidatorStats.All.ReceivedBlockCount
      = (twoValidatorHistory.countP isReceive : Int) ∧
    twoValidatorStats.All.ProposedBlockCount + twoValidatorStats.All.ReceivedBlockCount
      = (twoValidatorHistory.length : Int) ∧
    ∀ v s, lookupSet twoValidatorStats.ByValidator v = some s →
      s.ProposedBlockCount = ((eventsOf v twoValidatorHistory).countP isPropose : Int) ∧
      s.ReceivedBlockCount = ((eventsOf v twoValidatorHistory).countP isReceive : Int) :=
  ⟨rfl, NewStats_event_counts twoValidatorHistory sampleApps twoValidatorStats none rfl⟩


/-! ## The keys of the per-validator map -/

theorem summary_ok_bps (st0 st1 : Stats) (history : List Event)
    (h : summary (some st0) history = Except.ok st1) :
    st1.BPS.num = Int.tdiv (totalConfirmedBlocks st0.ByValidator)
      (st0.ByValidator.length : Int) ∧
    st1.BPS.den = Int.tdiv st1.ExecutionTime 1000000000 ∧
    st1.ByValidator = st0.ByValidator ∧ st1.All = st0.All := by
  unfold summary at h
  dsimp only at h
  split_ifs at h with hz
  split at h
  · simp only [Except.ok.injEq] at h
    subst h
    exact ⟨rfl, rfl, rfl, rfl⟩
  · simp at h

theorem keys_map_snd (g : StatsSet → StatsSet) (bv : List (ValidatorID × StatsSet)) :
    (bv.map (fun kv => (kv.1, g kv.2))).map Prod.fst = bv.map Prod.fst := by
  induction bv with
  | nil => rfl
  | cons kv rest ih => simp [ih]

/-- After a pass in which every loop body goes through, the keys of the map
are distinct and are the validators with an event. -/
theorem keys_of_pass (history : List Event) (apps : ValidatorID → Option App)
    (hok : ∀ e ∈ history, eventOk e history apps = true) :
    ((calculateLoop {} history history apps).1.ByValidator.map Prod.fst).Nodup ∧
    (∀ v, v ∈ (calculateLoop {} history history apps).1.ByValidator.map Prod.fst
      ↔ ∃ e ∈ history, e.ValidatorID = v) ∧
    (calculateLoop {} history history apps).1.ByValidator.length
      = (validatorsOf history).length := by
  obtain ⟨k1, k2⟩ := keys_calculateLoop history {} history apps hok List.nodup_nil
  have k3 : ∀ v, v ∈ (calculateLoop {} history history apps).1.ByValidator.map Prod.fst
      ↔ ∃ e ∈ history, e.ValidatorID = v := by
    intro v
    rw [k2 v]
    simp
  refine ⟨k1, k3, ?_⟩
  have hp : ((calculateLoop {} history history apps).1.ByValidator.map Prod.fst).Perm
      (validatorsOf history) := by
    unfold validatorsOf
    rw [List.perm_ext_iff_of_nodup k1 (List.nodup_dedup _)]
    intro v
    rw [k3 v, List.mem_dedup, List.mem_map]
  have := hp.length_eq
  rwa [List.length_map] at this

/-- C19: after an accumulation pass that ends normally, the keys of
`ByValidator` are distinct and are exactly the `ValidatorID`s that occur in the
history, so the map has as many entries as there are distinct validators with
events; a successful `NewStats` keeps these keys, finalizes `All` with that
number as adjustment and divides the delivered total by that number for
`BPS`.  The oracle map plays no part. -/
theorem ByValidator_keys (history : List Event) (apps : ValidatorID → Option App)
    (hfin : (calculateLoop {} history history apps).2 = LoopExit.finished) :
    ((calculateLoop {} history history apps).1.ByValidator.map Prod.fst).Nodup ∧
    (∀ v, v ∈ (calculateLoop {} history history apps).1.ByValidator.map Prod.fst
      ↔ ∃ e ∈ history, e.ValidatorID = v) ∧
    (calculateLoop {} history history apps).1.ByValidator.length
      = (validatorsOf history).length ∧
    ∀ st err, NewStats history apps = Except.ok (some st, err) →
      st.ByValidator.map Prod.fst
        = (calculateLoop {} history history apps).1.ByValidator.map Prod.fst ∧
      st.All = (done (calculateLoop {} history history apps).1.All
        ((validatorsOf history).length : Int)).1 ∧
      st.BPS.num = Int.tdiv (totalConfirmedBlocks st.ByValidator)
        ((validatorsOf history).length : Int) := by
  have hok := (calculateLoop_finished_iff history {} history apps).1 hfin
  obtain ⟨k1, k3, k4⟩ := keys_of_pass history apps hok
  refine ⟨k1, k3, k4, ?_⟩
  intro st err h
  obtain ⟨_, _, hall, _, hbv, _⟩ := NewStats_ok_acc history apps st err h
  obtain ⟨_, st0, st1, _, hs, hst⟩ := NewStats_ok history apps (some st) err h
  cases hst
  obtain ⟨b1, _, b3, _⟩ := summary_ok_bps st0 st history hs
  refine ⟨?_, ?_, ?_⟩
  · rw [hbv, keys_map_snd (fun s => (done s 1).1)]
  · rw [hall, k4]
  · rw [b1, ← b3, hbv, List.length_map, k4]

/-- C19, at the sample history: the oracles know validators 1 and 2, the
history only validator 1, and the map has the single key 1. -/
theorem ByValidator_keys_witness :
    (calculateLoop {} sampleHistory sampleHistory sampleApps).2 = LoopExit.finished ∧
    (sampleApps 2).isSome = true ∧
    (calculateLoop {} sampleHistory sampleHistory sampleApps).1.ByValidator.map Prod.fst
      = [1] ∧
    (calculateLoop {} sampleHistory sampleHistory sampleApps).1.ByValidator.length
      = (validatorsOf sampleHistory).length :=
  ⟨rfl, rfl, rfl, (ByValidator_keys sampleHistory sampleApps rfl).2.2.1⟩


/-! ## Rejection of a malformed event -/

theorem calculateEvent_malformed (stats : Stats) (e : Event) (history : List Event)
    (apps : ValidatorID → Option App) (hm : malformed e) :
    calculateEvent stats e history apps = (stats, LoopExit.returned (rejection e)) := by
  unfold malformed at hm
  unfold calculateEvent rejection
  cases hpl : e.Payload with
  | other => rfl
  | consensus payload =>
    rw [hpl] at hm
    dsimp only at hm ⊢
    cases ht : payload.Typ with
    | unknown tag => rfl
    | evtProposeBlock => exact absurd ht hm.1
    | evtReceiveBlock => exact absurd ht hm.2

theorem calculateLoop_append (pre rest : List Event) (stats st1 : Stats)
    (history : List Event) (apps : ValidatorID → Option App)
    (hpre : calculateLoop stats pre history apps = (st1, LoopExit.finished)) :
    calculateLoop stats (pre ++ rest) history apps = calculateLoop st1 rest history apps := by
  induction pre generalizing stats with
  | nil =>
    simp only [calculateLoop, Prod.mk.injEq, and_true] at hpre
    subst hpre
    rfl
  | cons e pre1 ih =>
    unfold calculateLoop at hpre
    rw [List.cons_append]
    conv_lhs => unfold calculateLoop
    rcases he : calculateEvent stats e history apps with ⟨stats1, exit⟩
    rw [he] at hpre
    cases exit with
    | finished => exact ih stats1 hpre
    | returned err => simp at hpre
    | panicked p => simp at hpre

theorem calculateLoop_cons (stats : Stats) (e : Event) (rest history : List Event)
    (apps : ValidatorID → Option App) :
    calculateLoop stats (e :: rest) history apps =
      match calculateEvent stats e history apps with
      | (stats1, LoopExit.finished) => calculateLoop stats1 rest history apps
      | r => r := by
  conv_lhs => unfold calculateLoop

/-- When the events before the first malformed event `e` have been
accumulated (into `st1`, without panic), the loop of `calculate` ends at `e`
with the state `st1`, untouched by `e` and by the events after it, and with
`ErrUnknownEvent` if the payload of `e` is not a consensus event payload,
`ErrUnknownConsensusEventType` if its type is neither propose nor receive;
no event before `e` is malformed; and `calculate` returns that error whenever
the deferred finalization of `st1` returns. -/
theorem calculate_aborts_at_malformed (stats st1 : Stats) (pre post : List Event)
    (e : Event) (apps : ValidatorID → Option App)
    (hpre : calculateLoop stats pre (pre ++ e :: post) apps = (st1, LoopExit.finished))
    (hm : malformed e) :
    calculateLoop stats (pre ++ e :: post) (pre ++ e :: post) apps
      = (st1, LoopExit.returned (rejection e)) ∧
    (e.Payload = Payload.other → rejection e = Error.ErrUnknownEvent) ∧
    (e.Payload ≠ Payload.other → rejection e = Error.ErrUnknownConsensusEventType) ∧
    (∀ x ∈ pre, ¬ malformed x) ∧
    ∀ st2, calculateDeferred st1 = Except.ok st2 →
      calculate stats (pre ++ e :: post) apps
        = Except.ok (st2, some (rejection e)) := by
  have hloop : calculateLoop stats (pre ++ e :: post) (pre ++ e :: post) apps
      = (st1, LoopExit.returned (rejection e)) := by
    rw [calculateLoop_append pre (e :: post) stats st1 _ apps hpre, calculateLoop_cons,
      calculateEvent_malformed st1 e _ apps hm]
  refine ⟨hloop, ?_, ?_, ?_, ?_⟩
  · intro h; unfold rejection; rw [h]
  · intro h
    unfold rejection
    cases hpl : e.Payload with
    | other => exact absurd hpl h
    | consensus payload => rfl
  · exact calculateLoop_finished_wellformed pre stats st1 _ apps hpre
  · intro st2 hd
    unfold calculate
    rw [hloop]
    dsimp only
    rw [hd]

/-- The loop at the sample history followed by an event with an unknown
payload. -/
theorem calculate_aborts_at_malformed_witness :
    calculateLoop {} sampleHistory (sampleHistory ++ unknownEvent :: []) sampleApps
      = (sampleAccumulated, LoopExit.finished) ∧
    malformed unknownEvent ∧
    calculateLoop {} (sampleHistory ++ unknownEvent :: [])
        (sampleHistory ++ unknownEvent :: []) sampleApps
      = (sampleAccumulated, LoopExit.returned (rejection unknownEvent)) ∧
    rejection unknownEvent = Error.ErrUnknownEvent :=
  ⟨rfl, trivial,
    (calculate_aborts_at_malformed {} sampleAccumulated sampleHistory [] unknownEvent
      sampleApps rfl trivial).1, rfl⟩


/-- When the first event of the history is malformed, the loop of `calculate`
reaches its `return` with the error for that event and nothing accumulated;
the deferred `All.done(0)` then divides by `0 - 0` and `calculate` panics
instead of returning the error. -/
theorem calculate_panics_after_rejection (e : Event) (post : List Event)
    (apps : ValidatorID → Option App) (hm : malformed e) :
    calculateLoop {} (e :: post) (e :: post) apps
      = ({}, LoopExit.returned (rejection e)) ∧
    calculate {} (e :: post) apps = Except.error Panic.divideByZero := by
  have hloop : calculateLoop {} (e :: post) (e :: post) apps
      = ({}, LoopExit.returned (rejection e)) := by
    rw [calculateLoop_cons, calculateEvent_malformed {} e _ apps hm]
  refine ⟨hloop, ?_⟩
  unfold calculate
  rw [hloop]
  rfl

/-- C16: on a history that starts with an event whose payload is not a
consensus event payload, the loop of `calculate` ends at that event with
`ErrUnknownEvent` and nothing accumulated, and on one that starts with a
consensus payload of unknown type with `ErrUnknownConsensusEventType`; in both
cases the deferred `All.done(0)` divides by `0 - 0` and `calculate` panics
instead of returning the error. -/
theorem calculate_malformed_first :
    malformed unknownEvent ∧ malformed unknownTypeEvent ∧
    calculateLoop {} (unknownEvent :: sampleHistory) (unknownEvent :: sampleHistory)
        sampleApps
      = ({}, LoopExit.returned Error.ErrUnknownEvent) ∧
    calculate {} (unknownEvent :: sampleHistory) sampleApps
      = Except.error Panic.divideByZero ∧
    calculateLoop {} [unknownTypeEvent] [unknownTypeEvent] sampleApps
      = ({}, LoopExit.returned Error.ErrUnknownConsensusEventType) ∧
    calculate {} [unknownTypeEvent] sampleApps = Except.error Panic.divideByZero :=
  ⟨trivial, ⟨by decide, by decide⟩, rfl, rfl, rfl, rfl⟩

/-! ## The divisor of the global proposing latency -/

theorem sum_indicator (ks : List ValidatorID) (a : ValidatorID) (c : Nat)
    (hnd : ks.Nodup) (ha : a ∈ ks) :
    (ks.map (fun v => if a = v then c else 0)).sum = c := by
  induction ks with
  | nil => cases ha
  | cons k rest ih =>
    rw [List.nodup_cons] at hnd
    by_cases hk : a = k
    · subst hk
      have hz : ∀ v ∈ rest, (if a = v then c else 0) = 0 := by
        intro v hv
        have : ¬ a = v := fun h1 => hnd.1 (h1 ▸ hv)
        simp [this]
      have hs : (rest.map (fun v => if a = v then c else 0)).sum = 0 := by
        apply List.sum_eq_zero
        intro x hx
        obtain ⟨v, hv, rfl⟩ := List.mem_map.mp hx
        exact hz v hv
      simp [hs]
    · have hr : a ∈ rest := by
        rcases List.mem_cons.mp ha with h1 | h1
        · exact absurd h1 hk
        · exact h1
      simp [hk, ih hnd.2 hr]

/-- The events that satisfy `p` are counted once by grouping them by
validator. -/
theorem countP_by_validator (p : Event → Bool) (events : List Event)
    (ks : List ValidatorID) (hnd : ks.Nodup) (hcov : ∀ e ∈ events, e.ValidatorID ∈ ks) :
    events.countP p = (ks.map (fun v => (eventsOf v events).countP p)).sum := by
  induction events with
  | nil =>
    have : ∀ v : ValidatorID, (eventsOf v ([] : List Event)).countP p = 0 := fun _ => rfl
    simp [this]
  | cons e rest ih =>
    have hr := ih (fun x hx => hcov x (List.mem_cons_of_mem _ hx))
    have he := hcov e (List.mem_cons_self _ _)
    have hstep : ∀ v, (eventsOf v (e :: rest)).countP p
        = (eventsOf v rest).countP p + (if e.ValidatorID = v then (if p e then 1 else 0) else 0) := by
      intro v
      unfold eventsOf
      by_cases hv : e.ValidatorID = v
      · simp [List.filter_cons, hv, List.countP_cons]
      · simp [List.filter_cons, hv]
    simp only [hstep]
    rw [List.sum_map_add, ← hr, sum_indicator ks e.ValidatorID _ hnd he, List.countP_cons]

theorem sum_eq_length_of_ones (ks : List ValidatorID) (f : ValidatorID → Nat)
    (h : ∀ v ∈ ks, f v = 1) : (ks.map f).sum = ks.length := by
  induction ks with
  | nil => rfl
  | cons k rest ih =>
    simp only [List.map_cons, List.sum_cons, List.length_cons]
    rw [h k (List.mem_cons_self _ _), ih (fun v hv => h v (List.mem_cons_of_mem _ hv))]
    omega

theorem sum_le_length_of_le_one (ks : List ValidatorID) (f : ValidatorID → Nat)
    (h : ∀ v ∈ ks, f v ≤ 1) : (ks.map f).sum ≤ ks.length := by
  induction ks with
  | nil => simp
  | cons k rest ih =>
    simp only [List.map_cons, List.sum_cons, List.length_cons]
    have h1 := h k (List.mem_cons_self _ _)
    have h2 := ih (fun v hv => h v (List.mem_cons_of_mem _ hv))
    omega

theorem sum_lt_length_of_zero (ks : List ValidatorID) (f : ValidatorID → Nat)
    (h : ∀ v ∈ ks, f v ≤ 1) (hz : ∃ v ∈ ks, f v = 0) : (ks.map f).sum < ks.length := by
  induction ks with
  | nil => obtain ⟨v, hv, _⟩ := hz; cases hv
  | cons k rest ih =>
    simp only [List.map_cons, List.sum_cons, List.length_cons]
    have h1 := h k (List.mem_cons_self _ _)
    have hrest : ∀ v ∈ rest, f v ≤ 1 := fun v hv => h v (List.mem_cons_of_mem _ hv)
    obtain ⟨v, hv, hv0⟩ := hz
    rcases List.mem_cons.mp hv with rfl | hv1
    · have := sum_le_length_of_le_one rest f hrest
      omega
    · have := ih hrest ⟨v, hv1, hv0⟩
      omega

theorem mem_validatorsOf (history : List Event) (e : Event) (he : e ∈ history) :
    e.ValidatorID ∈ validatorsOf history := by
  unfold validatorsOf
  rw [List.mem_dedup]
  exact List.mem_map_of_mem _ he

theorem countP_propose_split (events : List Event) :
    events.countP isPropose
      = events.countP isParentedPropose + events.countP isParentlessPropose := by
  induction events with
  | nil => rfl
  | cons e rest ih =>
    rw [List.countP_cons, List.countP_cons, List.countP_cons, ih]
    unfold isParentedPropose isParentlessPropose
    by_cases h1 : isPropose e = true <;> by_cases h2 : e.ParentHistoryIndex = -1 <;>
      simp [h1, h2] <;> omega

theorem done_snd_eq_none (s : StatsSet) (n : Int) (h : (done s n).2 = none) :
    s.ProposedBlockCount - n ≠ 0 ∧ s.ReceivedBlockCount ≠ 0 ∧ s.ProposedBlockCount ≠ 0 := by
  unfold done at h
  dsimp only at h
  split_ifs at h with h1 h2 h3
  exact ⟨h1, h2, h3⟩

/-- The proposed count, the number of entries and the proposing latency of
`All` in what `NewStats` returns. -/
theorem NewStats_all_proposing (history : List Event) (apps : ValidatorID → Option App)
    (st : Stats) (err : Option Error)
    (h : NewStats history apps = Except.ok (some st, err)) :
    st.All.ProposedBlockCount = (history.countP isPropose : Int) ∧
    st.ByValidator.length = (validatorsOf history).length ∧
    st.All.ProposingLatency =
      Int.tdiv (((history.filter isParentedPropose).map (parentGap history)).sum)
        (st.All.ProposedBlockCount - (st.ByValidator.length : Int)) := by
  obtain ⟨_, hok, hall, hdn, hbv, _⟩ := NewStats_ok_acc history apps st err h
  obtain ⟨hl, _, _, _⟩ := calculateLoop_of_eventOk history {} history apps hok
  obtain ⟨c1, _, c3⟩ := accumulateAll_counts history history apps {} hok
  obtain ⟨_, _, k4⟩ := keys_of_pass history apps hok
  obtain ⟨n1, n2, n3⟩ := done_snd_eq_none _ _ hdn
  have hlen : st.ByValidator.length = (validatorsOf history).length := by
    rw [hbv, List.length_map, k4]
  have hdone := done_eq_of_ne _ _ n1 n2 n3
  have hp : st.All.ProposedBlockCount = (history.countP isPropose : Int) := by
    rw [hall, hdone, hl, c1]; simp
  refine ⟨hp, hlen, ?_⟩
  rw [hp, hlen, hall, hdone]
  dsimp only
  rw [k4, hl, c1, c3]
  simp

theorem done_proposingLatency (s : StatsSet) (n : Int)
    (h : s.ProposedBlockCount - n ≠ 0) :
    (done s n).1.ProposingLatency
      = Int.tdiv s.ProposingLatency (s.ProposedBlockCount - n) := by
  unfold done
  dsimp only
  rw [if_neg h]
  split_ifs <;> rfl

/-- The proposed count, the number of entries and the proposing latency sum
of `All` after an accumulation pass that ends normally. -/
theorem pass_all_proposing (history : List Event) (apps : ValidatorID → Option App)
    (hok : ∀ e ∈ history, eventOk e history apps = true) :
    (calculateLoop {} history history apps).1.All.ProposedBlockCount
      = (history.countP isPropose : Int) ∧
    (calculateLoop {} history history apps).1.ByValidator.length
      = (validatorsOf history).length ∧
    (calculateLoop {} history history apps).1.All.ProposingLatency
      = ((history.filter isParentedPropose).map (parentGap history)).sum := by
  obtain ⟨hl, _, _, _⟩ := calculateLoop_of_eventOk history {} history apps hok
  obtain ⟨c1, _, c3⟩ := accumulateAll_counts history history apps {} hok
  obtain ⟨_, _, k4⟩ := keys_of_pass history apps hok
  refine ⟨?_, k4, ?_⟩
  · rw [hl, c1]; simp
  · rw [hl, c3]; simp

/-- C17 (amended): after an accumulation pass that ends normally, the divisor
that `All.done` uses for the proposing latency,
`All.ProposedBlockCount - len(ByValidator)`, equals the number of propose
events with a parent exactly when the number of parentless propose events
equals the number of validators with events.  So if every validator with
events has exactly one parentless proposal the two are equal, and (when there
is a parented propose event, so that the divisor is not zero) `All.done` leaves
in `All.ProposingLatency` the truncated mean of
`e.Time - parent.Time - parent.ExecInterval` over the parented propose events,
which is also what a successful `NewStats` returns; and they differ if some
validator with events has no parentless proposal (for instance only receive
events) while no validator has more than one. -/
theorem proposing_divisor (history : List Event) (apps : ValidatorID → Option App)
    (hfin : (calculateLoop {} history history apps).2 = LoopExit.finished) :
    ((calculateLoop {} history history apps).1.All.ProposedBlockCount
          - ((calculateLoop {} history history apps).1.ByValidator.length : Int)
        = (history.countP isParentedPropose : Int)
      ↔ history.countP isParentlessPropose = (validatorsOf history).length) ∧
    ((∀ v ∈ validatorsOf history, (eventsOf v history).countP isParentlessPropose = 1) →
      (calculateLoop {} history history apps).1.All.ProposedBlockCount
          - ((calculateLoop {} history history apps).1.ByValidator.length : Int)
        = (history.countP isParentedPropose : Int) ∧
      (history.countP isParentedPropose ≠ 0 →
        (done (calculateLoop {} history history apps).1.All
          ((calculateLoop {} history history apps).1.ByValidator.length : Int)).1.ProposingLatency
          = Int.tdiv (((history.filter isParentedPropose).map (parentGap history)).sum)
              (history.countP isParentedPropose : Int)) ∧
      ∀ st err, NewStats history apps = Except.ok (some st, err) →
        st.All.ProposingLatency =
          Int.tdiv (((history.filter isParentedPropose).map (parentGap history)).sum)
            (history.countP isParentedPropose : Int)) ∧
    ((∀ v ∈ validatorsOf history, (eventsOf v history).countP isParentlessPropose ≤ 1) →
      (∃ v ∈ validatorsOf history, (eventsOf v history).countP isParentlessPropose = 0) →
      (calculateLoop {} history history apps).1.All.ProposedBlockCount
          - ((calculateLoop {} history history apps).1.ByValidator.length : Int)
        ≠ (history.countP isParentedPropose : Int)) := by
  have hok := (calculateLoop_finished_iff history {} history apps).1 hfin
  obtain ⟨hp, hlen, hsum⟩ := pass_all_proposing history apps hok
  have hsplit := countP_propose_split history
  have hgroup := countP_by_validator isParentlessPropose history (validatorsOf history)
    (List.nodup_dedup _) (fun e he => mem_validatorsOf history e he)
  have hiff : (calculateLoop {} history history apps).1.All.ProposedBlockCount
          - ((calculateLoop {} history history apps).1.ByValidator.length : Int)
        = (history.countP isParentedPropose : Int)
      ↔ history.countP isParentlessPropose = (validatorsOf history).length := by
    rw [hp, hlen, hsplit]
    push_cast
    constructor
    · intro h1; omega
    · intro h1; omega
  refine ⟨hiff, ?_, ?_⟩
  · intro hone
    have heq : history.countP isParentlessPropose = (validatorsOf history).length := by
      rw [hgroup]
      exact sum_eq_length_of_ones _ _ hone
    have hd := hiff.2 heq
    refine ⟨hd, ?_, ?_⟩
    · intro hn
      have hne : (calculateLoop {} history history apps).1.All.ProposedBlockCount
          - ((calculateLoop {} history history apps).1.ByValidator.length : Int) ≠ 0 := by
        rw [hd]
        exact_mod_cast hn
      rw [done_proposingLatency _ _ hne, hd, hsum]
    · intro st err h
      obtain ⟨sp, slen, slat⟩ := NewStats_all_proposing history apps st err h
      rw [slat, sp, slen, ← hp, ← hlen, hd]
  · intro hle hz hd
    have heq := hiff.1 hd
    have hlt := sum_lt_length_of_zero (validatorsOf history)
      (fun v => (eventsOf v history).countP isParentlessPropose) hle hz
    rw [← hgroup] at hlt
    omega

/-- C17, at the two-validator history, in which each validator has exactly one
parentless proposal (the divisor is 2, the number of parented proposals), and
at `receiveOnlyHistory`, in which validator 2 has only a receive event (the
divisor is `3 - 2 = 1`, the number of parented proposals is 2). -/
theorem proposing_divisor_witness :
    (calculateLoop {} twoValidatorHistory twoValidatorHistory sampleApps).2
      = LoopExit.finished ∧
    (∀ v ∈ validatorsOf twoValidatorHistory,
      (eventsOf v twoValidatorHistory).countP isParentlessPropose = 1) ∧
    (calculateLoop {} twoValidatorHistory twoValidatorHistory sampleApps).1.All.ProposedBlockCount
        - ((calculateLoop {} twoValidatorHistory twoValidatorHistory
            sampleApps).1.ByValidator.length : Int)
      = (twoValidatorHistory.countP isParentedPropose : Int) ∧
    (calculateLoop {} receiveOnlyHistory receiveOnlyHistory sampleApps).2
      = LoopExit.finished ∧
    (eventsOf 2 receiveOnlyHistory).countP isPropose = 0 ∧
    (calculateLoop {} receiveOnlyHistory receiveOnlyHistory sampleApps).1.All.ProposedBlockCount
        - ((calculateLoop {} receiveOnlyHistory receiveOnlyHistory
            sampleApps).1.ByValidator.length : Int)
      ≠ (receiveOnlyHistory.countP isParentedPropose : Int) :=
  ⟨rfl, by decide,
    ((proposing_divisor twoValidatorHistory sampleApps rfl).2.1 (by decide)).1,
    rfl, by decide,
    (proposing_divisor receiveOnlyHistory sampleApps rfl).2.2 (by decide)
      ⟨2, by decide, by decide⟩⟩

/-- C17 as stated fails: in `balancedHistory` validator 2 has events and no
parentless proposal, `NewStats` succeeds, and still the divisor
`All.ProposedBlockCount - len(ByValidator) = 5 - 2` equals the number of
parented propose events, 3, because validator 1 has two parentless
proposals. -/
theorem proposing_divisor_balanced :
    NewStats balancedHistory sampleApps = Except.ok (some balancedStats, none) ∧
    2 ∈ validatorsOf balancedHistory ∧
    (eventsOf 2 balancedHistory).countP isParentlessPropose = 0 ∧
    balancedStats.All.ProposedBlockCount - (balancedStats.ByValidator.length : Int)
      = (balancedHistory.countP isParentedPropose : Int) :=
  ⟨rfl, by decide, by decide, by decide⟩


/-! ## Totality of `NewStats` on well-formed histories -/

theorem historyAt_in_range (history : List Event) (i : Int) (h0 : 0 ≤ i)
    (h1 : i < (history.length : Int)) : (historyAt history i).isSome = true := by
  unfold historyAt
  have hn : ¬ i < 0 := by omega
  have hlt : i.toNat < history.length := by omega
  rw [if_neg hn, List.getElem?_eq_getElem hlt]
  rfl

theorem mem_lookupSet_of_nodup (bv : List (ValidatorID × StatsSet)) (k : ValidatorID)
    (s : StatsSet) (hnd : (bv.map Prod.fst).Nodup) (hm : (k, s) ∈ bv) :
    lookupSet bv k = some s := by
  induction bv with
  | nil => cases hm
  | cons kv rest ih =>
    obtain ⟨k0, s0⟩ := kv
    simp only [List.map_cons, List.nodup_cons] at hnd
    rcases List.mem_cons.mp hm with h1 | h1
    · cases h1
      simp [lookupSet]
    · have hk : ¬ k0 = k := by
        intro h2
        apply hnd.1
        rw [h2]
        exact List.mem_map_of_mem Prod.fst h1
      simp only [lookupSet, hk, if_false]
      exact ih hnd.2 h1

theorem doneEach_of_ok (bv : List (ValidatorID × StatsSet))
    (h : ∀ kv ∈ bv, (done kv.2 1).2 = none) :
    doneEach bv = Except.ok (bv.map (fun kv => (kv.1, (done kv.2 1).1))) := by
  induction bv with
  | nil => rfl
  | cons kv rest ih =>
    obtain ⟨k, s⟩ := kv
    have h1 : (done s 1).2 = none := h (k, s) (List.mem_cons_self _ _)
    have h2 := ih (fun x hx => h x (List.mem_cons_of_mem _ hx))
    unfold doneEach
    rcases hd : done s 1 with ⟨s1, _ | p⟩
    · rw [hd] at h1
      simp only [h2, List.map_cons, hd]
    · rw [hd] at h1
      cases h1

theorem sum_ge_of_ge (ks : List ValidatorID) (f : ValidatorID → Nat) (c : Nat)
    (h : ∀ v ∈ ks, c ≤ f v) : c * ks.length ≤ (ks.map f).sum := by
  induction ks with
  | nil => simp
  | cons k rest ih =>
    simp only [List.map_cons, List.sum_cons, List.length_cons]
    have h1 := h k (List.mem_cons_self _ _)
    have h2 := ih (fun v hv => h v (List.mem_cons_of_mem _ hv))
    rw [Nat.mul_succ]
    omega

/-- The loop body goes through on an event that is well formed: a propose or
receive payload, a parent index in range (or -1 for a proposal), and for a
receipt a piggybacked block and an oracle for its validator. -/
theorem eventOk_of_wellformed (e : Event) (history : List Event)
    (apps : ValidatorID → Option App)
    (hkind : isPropose e = true ∨ isReceive e = true)
    (hrecv : isReceive e = true →
      0 ≤ e.ParentHistoryIndex ∧ e.ParentHistoryIndex < (history.length : Int))
    (hprop : isPropose e = true → e.ParentHistoryIndex = -1 ∨
      (0 ≤ e.ParentHistoryIndex ∧ e.ParentHistoryIndex < (history.length : Int)))
    (hblock : ∀ payload, e.Payload = Payload.consensus payload →
      payload.Typ = consensusEventType.evtReceiveBlock →
      ∃ b, payload.PiggyBack = PiggyBack.block b)
    (horacle : isReceive e = true → (apps e.ValidatorID).isSome = true) :
    eventOk e history apps = true := by
  unfold isPropose at hkind hprop
  unfold isReceive at hkind hrecv horacle
  unfold eventOk
  cases hpl : e.Payload with
  | other => rw [hpl] at hkind; simp at hkind
  | consensus payload =>
    rw [hpl] at hkind hrecv hprop horacle
    dsimp only at hkind hrecv hprop horacle ⊢
    cases ht : payload.Typ with
    | unknown tag => rw [ht] at hkind; simp at hkind
    | evtProposeBlock =>
      rw [ht] at hprop
      dsimp only
      unfold proposeOk
      rcases hprop (by simp) with h1 | ⟨h1, h2⟩
      · simp [h1]
      · simp [historyAt_in_range history _ h1 h2]
    | evtReceiveBlock =>
      rw [ht] at hrecv horacle
      dsimp only
      unfold receiveOk
      obtain ⟨h1, h2⟩ := hrecv (by simp)
      obtain ⟨b, hb⟩ := hblock payload hpl ht
      simp [historyAt_in_range history _ h1 h2, hb, horacle (by simp)]

/-- C18: `NewStats` returns a `Stats` value and a nil error on every non-empty
history in which every payload is a propose or receive consensus payload,
every receive event has an in-range parent index, every propose event has
parent index -1 or an in-range one, every receive payload carries a block and
its validator has an oracle, and every validator with events has at least two
propose events and at least one receive event. -/
theorem NewStats_total (history : List Event) (apps : ValidatorID → Option App)
    (hne : history ≠ [])
    (hkind : ∀ e ∈ history, isPropose e = true ∨ isReceive e = true)
    (hrecv : ∀ e ∈ history, isReceive e = true →
      0 ≤ e.ParentHistoryIndex ∧ e.ParentHistoryIndex < (history.length : Int))
    (hprop : ∀ e ∈ history, isPropose e = true → e.ParentHistoryIndex = -1 ∨
      (0 ≤ e.ParentHistoryIndex ∧ e.ParentHistoryIndex < (history.length : Int)))
    (hblock : ∀ e ∈ history, ∀ payload, e.Payload = Payload.consensus payload →
      payload.Typ = consensusEventType.evtReceiveBlock →
      ∃ b, payload.PiggyBack = PiggyBack.block b)
    (horacle : ∀ e ∈ history, isReceive e = true → (apps e.ValidatorID).isSome = true)
    (hcount : ∀ v ∈ validatorsOf history,
      2 ≤ (eventsOf v history).countP isPropose ∧
      1 ≤ (eventsOf v history).countP isReceive) :
    ∃ st, NewStats history apps = Except.ok (some st, none) := by
  have hok : ∀ e ∈ history, eventOk e history apps = true := fun e he =>
    eventOk_of_wellformed e history apps (hkind e he) (hrecv e he) (hprop e he)
      (hblock e he) (horacle e he)
  have hfin := (calculateLoop_finished_iff history {} history apps).2 hok
  obtain ⟨hl, hlk, _, _⟩ := calculateLoop_of_eventOk history {} history apps hok
  obtain ⟨k1, k3, k4⟩ := keys_of_pass history apps hok
  obtain ⟨c1, c2, _⟩ := accumulateAll_counts history history apps {} hok
  -- the number of validators is positive
  have hpos : 1 ≤ (validatorsOf history).length := by
    cases history with
    | nil => exact absurd rfl hne
    | cons e rest =>
      exact List.length_pos_of_mem (mem_validatorsOf (e :: rest) e (List.mem_cons_self _ _))
  -- the counts of `All`
  have gP := countP_by_validator isPropose history (validatorsOf history)
    (List.nodup_dedup _) (fun e he => mem_validatorsOf history e he)
  have gR := countP_by_validator isReceive history (validatorsOf history)
    (List.nodup_dedup _) (fun e he => mem_validatorsOf history e he)
  have bP := sum_ge_of_ge (validatorsOf history)
    (fun v => (eventsOf v history).countP isPropose) 2 (fun v hv => (hcount v hv).1)
  have bR := sum_ge_of_ge (validatorsOf history)
    (fun v => (eventsOf v history).countP isReceive) 1 (fun v hv => (hcount v hv).2)
  rw [← gP] at bP
  rw [← gR] at bR
  have haP : (calculateLoop {} history history apps).1.All.ProposedBlockCount
      = (history.countP isPropose : Int) := by rw [hl, c1]; simp
  have haR : (calculateLoop {} history history apps).1.All.ReceivedBlockCount
      = (history.countP isReceive : Int) := by rw [hl, c2]; simp
  have hdAll := done_eq_of_ne (calculateLoop {} history history apps).1.All
    ((calculateLoop {} history history apps).1.ByValidator.length : Int)
    (by rw [haP, k4]; omega) (by rw [haR]; omega) (by rw [haP]; omega)
  -- the counts of every per-validator set
  have hsets : ∀ kv ∈ (calculateLoop {} history history apps).1.ByValidator,
      (done kv.2 1).2 = none := by
    intro kv hkv
    obtain ⟨k, s⟩ := kv
    have hlook := mem_lookupSet_of_nodup _ k s k1 hkv
    have hkey : k ∈ (calculateLoop {} history history apps).1.ByValidator.map Prod.fst :=
      List.mem_map_of_mem Prod.fst hkv
    obtain ⟨e, he, hek⟩ := (k3 k).1 hkey
    have hkv2 : k ∈ validatorsOf history := hek ▸ mem_validatorsOf history e he
    rw [hlk k] at hlook
    have hacc : accumulateAll (eventsOf k history) history apps {} = s := by
      by_cases hempty : eventsOf k history = []
      · rw [if_pos hempty] at hlook
        cases hlook
      · rw [if_neg hempty] at hlook
        exact Option.some.inj hlook
    obtain ⟨f1, f2, _⟩ := accumulateAll_counts (eventsOf k history) history apps {}
      (fun x hx => hok x (eventsOf_subset k history x hx))
    obtain ⟨q1, q2⟩ := hcount k hkv2
    have hsP : s.ProposedBlockCount = ((eventsOf k history).countP isPropose : Int) := by
      rw [← hacc]
      simpa using f1
    have hsR : s.ReceivedBlockCount = ((eventsOf k history).countP isReceive : Int) := by
      rw [← hacc]
      simpa using f2
    have := done_eq_of_ne s 1 (by rw [hsP]; omega) (by rw [hsR]; omega)
      (by rw [hsP]; omega)
    show (done s 1).2 = none
    rw [this]
  have hdEach := doneEach_of_ok _ hsets
  have hdef : calculateDeferred (calculateLoop {} history history apps).1
      = Except.ok { (calculateLoop {} history history apps).1 with
          All := (done (calculateLoop {} history history apps).1.All
            ((calculateLoop {} history history apps).1.ByValidator.length : Int)).1
          ByValidator := (calculateLoop {} history history apps).1.ByValidator.map
            (fun kv => (kv.1, (done kv.2 1).1)) } := by
    unfold calculateDeferred
    rw [hdEach]
    rw [hdAll]
  have hcalc : calculate {} history apps
      = Except.ok ({ (calculateLoop {} history history apps).1 with
          All := (done (calculateLoop {} history history apps).1.All
            ((calculateLoop {} history history apps).1.ByValidator.length : Int)).1
          ByValidator := (calculateLoop {} history history apps).1.ByValidator.map
            (fun kv => (kv.1, (done kv.2 1).1)) }, none) := by
    unfold calculate
    rcases hloop : calculateLoop {} history history apps with ⟨acc, exit⟩
    rw [hloop] at hfin hdef
    dsimp only at hfin hdef ⊢
    rw [hdef, hfin]
  have hbvne : ({ (calculateLoop {} history history apps).1 with
      All := (done (calculateLoop {} history history apps).1.All
        ((calculateLoop {} history history apps).1.ByValidator.length : Int)).1
      ByValidator := (calculateLoop {} history history apps).1.ByValidator.map
        (fun kv => (kv.1, (done kv.2 1).1)) } : Stats).ByValidator ≠ [] := by
    intro h0
    have hlen := congrArg List.length h0
    simp only [List.length_map, List.length_nil] at hlen
    omega
  obtain ⟨first, last, _, _, hs⟩ := summary_of_nonempty _ history hbvne hne
  constructor
  unfold NewStats
  rw [hcalc]
  simp only [ne_eq, not_true_eq_false, if_false]
  rw [hs]

/-- C18, at the two-validator history. -/
theorem NewStats_total_witness :
    twoValidatorHistory ≠ [] ∧
    (∀ e ∈ twoValidatorHistory, isPropose e = true ∨ isReceive e = true) ∧
    (∀ v ∈ validatorsOf twoValidatorHistory,
      2 ≤ (eventsOf v twoValidatorHistory).countP isPropose ∧
      1 ≤ (eventsOf v twoValidatorHistory).countP isReceive) ∧
    ∃ st, NewStats twoValidatorHistory sampleApps = Except.ok (some st, none) :=
  ⟨by decide, by decide, by decide,
    NewStats_total twoValidatorHistory sampleApps (by decide) (by decide) (by decide)
      (by decide)
      (by
        intro e he payload hpl ht
        simp only [twoValidatorHistory, List.mem_cons, List.mem_singleton,
          List.not_mem_nil, or_false] at he
        rcases he with rfl | rfl | rfl | rfl | rfl | rfl <;>
          simp only [mkPropose, mkReceive, Payload.consensus.injEq] at hpl <;>
          subst hpl <;> first | exact ⟨_, rfl⟩ | cases ht)
      (by decide) (by decide)⟩


/-! ## Independence of the map iteration order -/

theorem done_panic (s : StatsSet) (n : Int) :
    (done s n).2 = none ∨ (done s n).2 = some Panic.divideByZero := by
  unfold done
  dsimp only
  split_ifs <;> simp

theorem doneEach_error (bv : List (ValidatorID × StatsSet)) (p : Panic)
    (h : doneEach bv = Except.error p) : p = Panic.divideByZero := by
  induction bv generalizing p with
  | nil => simp [doneEach] at h
  | cons kv rest ih =>
    obtain ⟨k, s⟩ := kv
    unfold doneEach at h
    rcases hd : done s 1 with ⟨s1, _ | q⟩
    · rw [hd] at h
      dsimp only at h
      cases hr : doneEach rest with
      | error q =>
        rw [hr] at h
        simp only [Except.error.injEq] at h
        rw [← h]
        exact ih q hr
      | ok rest1 => rw [hr] at h; simp at h
    · rw [hd] at h
      simp only [Except.error.injEq] at h
      rcases done_panic s 1 with h1 | h1
      · rw [hd] at h1; cases h1
      · rw [hd] at h1
        simp only [Option.some.injEq] at h1
        rw [← h, h1]

/-- The loop of `done(1)` calls over the map ends the same way in every
order: with the same panic, or with every set finalized. -/
theorem doneEach_perm (l1 l2 : List (ValidatorID × StatsSet)) (hp : l1.Perm l2) :
    (∃ p, doneEach l1 = Except.error p ∧ doneEach l2 = Except.error p) ∨
    (doneEach l1 = Except.ok (l1.map (fun kv => (kv.1, (done kv.2 1).1))) ∧
      doneEach l2 = Except.ok (l2.map (fun kv => (kv.1, (done kv.2 1).1)))) := by
  cases h1 : doneEach l1 with
  | error p =>
    cases h2 : doneEach l2 with
    | error q =>
      left
      refine ⟨p, rfl, ?_⟩
      rw [doneEach_error l1 p h1, doneEach_error l2 q h2]
    | ok r2 =>
      exfalso
      obtain ⟨_, hall⟩ := doneEach_ok l2 r2 h2
      have h3 := doneEach_of_ok l1 (fun kv hkv => hall kv (hp.mem_iff.mp hkv))
      rw [h3] at h1
      cases h1
  | ok r1 =>
    obtain ⟨hr1, hall⟩ := doneEach_ok l1 r1 h1
    have h3 := doneEach_of_ok l2 (fun kv hkv => hall kv (hp.mem_iff.mpr hkv))
    right
    exact ⟨by rw [hr1], h3⟩

theorem calculateDeferredIn_perm
    (o1 o2 : List (ValidatorID × StatsSet) → List (ValidatorID × StatsSet))
    (h1 : ∀ l, (o1 l).Perm l) (h2 : ∀ l, (o2 l).Perm l) (stats : Stats) :
    (∃ p, calculateDeferredIn o1 stats = Except.error p ∧
      calculateDeferredIn o2 stats = Except.error p) ∨
    (∃ s1 s2, calculateDeferredIn o1 stats = Except.ok s1 ∧
      calculateDeferredIn o2 stats = Except.ok s2 ∧ sameStats s1 s2) := by
  unfold calculateDeferredIn
  rcases hd : done stats.All (stats.ByValidator.length : Int) with ⟨all, _ | p⟩
  · dsimp only
    have hperm : (o1 stats.ByValidator).Perm (o2 stats.ByValidator) :=
      (h1 _).trans (h2 _).symm
    rcases doneEach_perm _ _ hperm with ⟨p, e1, e2⟩ | ⟨e1, e2⟩
    · left
      exact ⟨p, by rw [e1], by rw [e2]⟩
    · right
      refine ⟨{ stats with
            All := all
            ByValidator := (o1 stats.ByValidator).map (fun kv => (kv.1, (done kv.2 1).1)) },
          { stats with
            All := all
            ByValidator := (o2 stats.ByValidator).map (fun kv => (kv.1, (done kv.2 1).1)) },
          by rw [e1], by rw [e2], rfl, rfl, rfl, ?_⟩
      exact hperm.map _
  · left
    exact ⟨p, rfl, rfl⟩

theorem calculateIn_perm
    (o1 o2 : List (ValidatorID × StatsSet) → List (ValidatorID × StatsSet))
    (h1 : ∀ l, (o1 l).Perm l) (h2 : ∀ l, (o2 l).Perm l) (stats : Stats)
    (history : List Event) (apps : ValidatorID → Option App) :
    (∃ p, calculateIn o1 stats history apps = Except.error p ∧
      calculateIn o2 stats history apps = Except.error p) ∨
    (∃ s1 s2 err, calculateIn o1 stats history apps = Except.ok (s1, err) ∧
      calculateIn o2 stats history apps = Except.ok (s2, err) ∧ sameStats s1 s2) := by
  unfold calculateIn
  rcases hl : calculateLoop stats history history apps with ⟨acc, exit⟩
  dsimp only
  rcases calculateDeferredIn_perm o1 o2 h1 h2 acc with ⟨p, e1, e2⟩ | ⟨s1, s2, e1, e2, hs⟩
  · left
    exact ⟨p, by rw [e1], by rw [e2]⟩
  · rw [e1, e2]
    cases exit with
    | finished => right; exact ⟨s1, s2, none, rfl, rfl, hs⟩
    | returned err => right; exact ⟨s1, s2, some err, rfl, rfl, hs⟩
    | panicked p => left; exact ⟨p, rfl, rfl⟩

theorem totalConfirmedBlocks_perm (l1 l2 : List (ValidatorID × StatsSet))
    (hp : l1.Perm l2) : totalConfirmedBlocks l1 = totalConfirmedBlocks l2 := by
  rw [totalConfirmedBlocks_eq_sum, totalConfirmedBlocks_eq_sum]
  exact (hp.map (fun kv => kv.2.DeliveredBlockCount)).sum_eq

theorem summaryIn_perm
    (o1 o2 : List (ValidatorID × StatsSet) → List (ValidatorID × StatsSet))
    (h1 : ∀ l, (o1 l).Perm l) (h2 : ∀ l, (o2 l).Perm l) (s1 s2 : Stats)
    (history : List Event) (hs : sameStats s1 s2) :
    (∃ p, summaryIn o1 (some s1) history = Except.error p ∧
      summaryIn o2 (some s2) history = Except.error p) ∨
    (∃ t1 t2, summaryIn o1 (some s1) history = Except.ok t1 ∧
      summaryIn o2 (some s2) history = Except.ok t2 ∧ sameStats t1 t2) := by
  obtain ⟨ha, _, _, hbv⟩ := hs
  have hlen : s1.ByValidator.length = s2.ByValidator.length := hbv.length_eq
  have htot : totalConfirmedBlocks (o1 s1.ByValidator)
      = totalConfirmedBlocks (o2 s2.ByValidator) :=
    totalConfirmedBlocks_perm _ _ (((h1 _).trans hbv).trans (h2 _).symm)
  unfold summaryIn
  dsimp only
  rw [hlen, htot]
  by_cases hz : (s2.ByValidator.length : Int) = 0
  · left
    exact ⟨Panic.divideByZero, by rw [if_pos hz], by rw [if_pos hz]⟩
  · rw [if_neg hz, if_neg hz]
    cases hl : historyAt history ((history.length : Int) - 1) with
    | none => left; exact ⟨Panic.indexOutOfRange, rfl, rfl⟩
    | some last =>
      cases hf : historyAt history 0 with
      | none => left; exact ⟨Panic.indexOutOfRange, rfl, rfl⟩
      | some first =>
        right
        exact ⟨_, _, rfl, rfl, ha, rfl, rfl, hbv⟩

/-- The canonical order is the one of the plain definitions. -/
theorem NewStatsIn_id (history : List Event) (apps : ValidatorID → Option App) :
    NewStatsIn id id history apps = NewStats history apps := rfl

/-- C14: `NewStats` is a function of the history and the oracle map alone, and
its outcome does not depend on the order in which the two loops over
`ByValidator` visit the map: for any two choices of iteration orders the two
runs end with the same panic, or return the same error and statistics with the
same `All`, `BPS`, `ExecutionTime` and `ByValidator` entries. -/
theorem NewStats_deterministic
    (o1 o2 o3 o4 : List (ValidatorID × StatsSet) → List (ValidatorID × StatsSet))
    (h1 : ∀ l, (o1 l).Perm l) (h2 : ∀ l, (o2 l).Perm l)
    (h3 : ∀ l, (o3 l).Perm l) (h4 : ∀ l, (o4 l).Perm l)
    (history : List Event) (apps : ValidatorID → Option App) :
    sameResult (NewStatsIn o1 o2 history apps) (NewStatsIn o3 o4 history apps) ∧
    NewStatsIn id id history apps = NewStats history apps := by
  refine ⟨?_, rfl⟩
  unfold NewStatsIn
  rcases calculateIn_perm o1 o3 h1 h3 {} history apps with
    ⟨p, e1, e2⟩ | ⟨s1, s2, err, e1, e2, hs⟩
  · rw [e1, e2]
    exact rfl
  · rw [e1, e2]
    dsimp only
    cases err with
    | some e =>
      simp only [ne_eq, reduceCtorEq, not_false_eq_true, if_true]
      exact rfl
    | none =>
      simp only [ne_eq, not_true_eq_false, if_false]
      rcases summaryIn_perm o2 o4 h2 h4 s1 s2 history hs with
        ⟨p, f1, f2⟩ | ⟨t1, t2, f1, f2, ht⟩
      · rw [f1, f2]
        exact rfl
      · rw [f1, f2]
        exact ⟨rfl, ht⟩

/-- C14, at the two-validator history with the map ranged over backwards in
both loops against the insertion order. -/
theorem NewStats_deterministic_witness :
    (∀ l : List (ValidatorID × StatsSet), (List.reverse l).Perm l) ∧
    sameResult (NewStatsIn List.reverse List.reverse twoValidatorHistory sampleApps)
      (NewStatsIn id id twoValidatorHistory sampleApps) ∧
    NewStatsIn id id twoValidatorHistory sampleApps
      = Except.ok (some twoValidatorStats, none) :=
  ⟨List.reverse_perm,
    (NewStats_deterministic List.reverse List.reverse id id List.reverse_perm
      List.reverse_perm (fun l => List.Perm.refl l) (fun l => List.Perm.refl l)
      twoValidatorHistory sampleApps).1, rfl⟩


/-! ## Single-event histories -/

/-- On a history of one event `NewStats` never returns: the event is rejected,
or panics, or `All.done(1)` divides by zero (by `1 - 1` after a proposal, by
the proposed count `0` after a receipt). -/
theorem NewStats_singleton_panics (e : Event) (apps : ValidatorID → Option App) :
    ∃ p, NewStats [e] apps = Except.error p := by
  cases hn : NewStats [e] apps with
  | error p => exact ⟨p, rfl⟩
  | ok r =>
    exfalso
    obtain ⟨st, err⟩ := r
    obtain ⟨herr, st0, st1, _, _, hst⟩ := NewStats_ok [e] apps st err hn
    subst hst
    obtain ⟨_, hok, _, hdn, _, _⟩ := NewStats_ok_acc [e] apps st1 err hn
    obtain ⟨hl, _, _, _⟩ := calculateLoop_of_eventOk [e] {} [e] apps hok
    obtain ⟨c1, _, _⟩ := accumulateAll_counts [e] [e] apps {} hok
    obtain ⟨_, _, k4⟩ := keys_of_pass [e] apps hok
    obtain ⟨n1, _, n3⟩ := done_snd_eq_none _ _ hdn
    have hv : (validatorsOf [e]).length = 1 := by simp [validatorsOf]
    rw [k4, hv, hl, c1] at n1
    rw [hl, c1] at n3
    by_cases hp : isPropose e = true
    · simp [List.countP_cons, hp] at n1
    · simp [List.countP_cons, hp] at n3

end Integration
